import Mathlib

/-!
Verification of the Australian Federal Parliament transcript pipeline.

This file gives a shallow embedding of the two core source modules —
`download_transcripts.py` (discovery crawl, staleness selection, retrieval
loop) and `prepare_transcripts.py` (markup normalisation: SGML preprocessing,
the context-propagating tree walk, debate segmentation, and the concurrent
orchestrator) — and proves or refutes the specification claims about them.

Strings are modelled as Lean `String` / `List Char`; SQLite tables as lists of
rows; the worker pool as an explicitly ordered list of task results (the
completion order is an input, since the Python code consumes futures in
completion order).
-/

set_option maxRecDepth 10000

namespace Hansard

/-! ### SGML doctype chopping (`chop_sgml_doctype`)

Python source:
```
start = "<HANSARD"
return start + sgml_str.partition(start)[2]
```
`str.partition(sep)` splits at the FIRST occurrence of `sep` and component
`[2]` is the text after that occurrence (empty when `sep` does not occur).
-/

/-- The root marker used by `chop_sgml_doctype`. -/
def hansardMarker : List Char := "<HANSARD".data

/-- The text following the first occurrence of `sep` (Python
`s.partition(sep)[2]`): scan left to right; at the first position where `sep`
is a prefix of the remaining text, return the remainder after `sep`; if `sep`
never occurs, return the empty list. -/
def partitionTail (sep : List Char) : List Char → List Char
  | [] => []
  | c :: rest =>
    if sep.isPrefixOf (c :: rest) then (c :: rest).drop sep.length
    else partitionTail sep rest

/-- Embedding of `chop_sgml_doctype`. -/
def chop_sgml_doctype (sgml_str : List Char) : List Char :=
  hansardMarker ++ partitionTail hansardMarker sgml_str

/-- `sep` occurs in `s` at position `i`. -/
def occursAt (sep s : List Char) (i : Nat) : Prop :=
  sep.isPrefixOf (s.drop i) = true

instance (sep s : List Char) (i : Nat) : Decidable (occursAt sep s i) := by
  unfold occursAt; infer_instance

theorem isPrefixOf_append_self (l t : List Char) : l.isPrefixOf (l ++ t) = true := by
  induction l with
  | nil => simp [List.isPrefixOf]
  | cons c cs ih => simp [List.isPrefixOf, ih]

theorem no_occurrence_of_bounded (sep s : List Char) (hne : sep ≠ [])
    (h : ∀ i, i < s.length → ¬ occursAt sep s i) : ∀ i, ¬ occursAt sep s i := by
  intro i hocc
  by_cases hi : i < s.length
  · exact h i hi hocc
  · have hdrop : s.drop i = [] := List.drop_eq_nil_of_le (Nat.le_of_not_lt hi)
    rw [occursAt, hdrop] at hocc
    cases sep with
    | nil => exact hne rfl
    | cons c cs => simp [List.isPrefixOf] at hocc

theorem isPrefixOf_append_drop (l s : List Char) (h : l.isPrefixOf s = true) :
    l ++ s.drop l.length = s := by
  induction l generalizing s with
  | nil => simp
  | cons c cs ih =>
    cases s with
    | nil => simp [List.isPrefixOf] at h
    | cons d ds =>
      simp only [List.isPrefixOf, Bool.and_eq_true, beq_iff_eq] at h
      obtain ⟨rfl, h2⟩ := h
      simpa using ih ds h2

theorem partitionTail_of_first_occurrence (sep : List Char) :
    ∀ (s : List Char) (i : Nat), occursAt sep s i →
    (∀ j, j < i → ¬ occursAt sep s j) →
    partitionTail sep s = (s.drop i).drop sep.length := by
  intro s
  induction s with
  | nil =>
    intro i h _
    cases sep with
    | nil => simp [partitionTail]
    | cons c cs => simp [occursAt, List.isPrefixOf] at h
  | cons c rest ih =>
    intro i h hmin
    cases i with
    | zero =>
      simp only [occursAt, List.drop_zero] at h
      simp [partitionTail, h]
    | succ i0 =>
      have hnot : ¬ occursAt sep (c :: rest) 0 := hmin 0 (Nat.succ_pos i0)
      simp only [occursAt, List.drop_zero] at hnot
      have hfalse : sep.isPrefixOf (c :: rest) = false := by
        cases hb : sep.isPrefixOf (c :: rest) with
        | false => rfl
        | true => exact absurd hb hnot
      have hrec : occursAt sep rest i0 := by
        simpa [occursAt] using h
      have hrecmin : ∀ j, j < i0 → ¬ occursAt sep rest j := by
        intro j hj hocc
        exact hmin (j + 1) (Nat.succ_lt_succ hj) (by simpa [occursAt] using hocc)
      simp [partitionTail, hfalse, ih i0 hrec hrecmin]

theorem partitionTail_of_no_occurrence (sep : List Char)
    (hne : sep ≠ []) :
    ∀ (s : List Char), (∀ i, ¬ occursAt sep s i) → partitionTail sep s = [] := by
  intro s
  induction s with
  | nil => intro _; cases sep with
    | nil => exact absurd rfl hne
    | cons c cs => simp [partitionTail]
  | cons c rest ih =>
    intro hno
    have h0 : ¬ occursAt sep (c :: rest) 0 := hno 0
    simp only [occursAt, List.drop_zero] at h0
    have hfalse : sep.isPrefixOf (c :: rest) = false := by
      cases hb : sep.isPrefixOf (c :: rest) with
      | false => rfl
      | true => exact absurd hb h0
    have : ∀ i, ¬ occursAt sep rest i := by
      intro i hocc
      exact hno (i + 1) (by simpa [occursAt] using hocc)
    simp [partitionTail, hfalse, ih this]

/-- C10: `chop_sgml_doctype` always returns a string beginning with
`<HANSARD`; when the input contains the marker the result is the suffix of
the input starting at its first occurrence, and when it does not the result
is exactly the bare marker. -/
theorem chop_sgml_doctype_characterisation (s : List Char) :
    hansardMarker.isPrefixOf (chop_sgml_doctype s) = true ∧
    (∀ i, occursAt hansardMarker s i → (∀ j, j < i → ¬ occursAt hansardMarker s j) →
      chop_sgml_doctype s = s.drop i) ∧
    ((∀ i, ¬ occursAt hansardMarker s i) → chop_sgml_doctype s = hansardMarker) := by
  refine ⟨?_, ?_, ?_⟩
  · unfold chop_sgml_doctype
    exact isPrefixOf_append_self _ _
  · intro i hocc hmin
    unfold chop_sgml_doctype
    rw [partitionTail_of_first_occurrence hansardMarker s i hocc hmin]
    exact isPrefixOf_append_drop _ _ hocc
  · intro hno
    unfold chop_sgml_doctype
    rw [partitionTail_of_no_occurrence hansardMarker (by decide) s hno]
    simp

/-- Witness for C10 on concrete inputs: a document with a doctype preamble is
chopped at the first `<HANSARD`, and a document without the marker collapses
to the bare marker. -/
theorem chop_sgml_doctype_characterisation_witness :
    chop_sgml_doctype "<!DOCTYPE hansard SYSTEM><HANSARD><TALK.START>".data =
      "<HANSARD><TALK.START>".data ∧
    chop_sgml_doctype "<html>error page</html>".data = "<HANSARD".data := by
  constructor
  · have h := (chop_sgml_doctype_characterisation
      "<!DOCTYPE hansard SYSTEM><HANSARD><TALK.START>".data).2.1
    have hc := h 25 (by decide) (by decide)
    exact hc.trans (by decide)
  · have h := (chop_sgml_doctype_characterisation
      "<html>error page</html>".data).2.2
    have hb : ∀ i, ¬ occursAt hansardMarker "<html>error page</html>".data i :=
      no_occurrence_of_bounded _ _ (by decide) (by decide)
    exact (h hb).trans (by decide)

/-! ### SGML entity substitution (`sgml_entity_replacements` / `entity_detector`)

Python source builds `entity_detector = re.compile("|".join(table.keys()))`
from the replacement dict (insertion order preserved, the literal `&`
catch-all last) and applies `entity_detector.sub(replace_sgml_entity, text)`:
a single left-to-right pass; at each position the first alternative (in table
order) that matches is replaced, scanning resumes after the replacement, so
replacement output is never rescanned. -/

/-- Embedding of the `sgml_entity_replacements` dict: the ordered list of
(named reference, Unicode replacement) pairs, the literal ampersand last. -/
def sgml_entity_replacements : List (List Char × List Char) :=
  [ ("&half;".data, "½".data),
    ("&frac34;".data, "¾".data),
    ("&bull;".data, "•".data),
    ("&yen;".data, "¥".data),
    ("&mdash;".data, "—".data),
    ("&cent;".data, "¢".data),
    ("&frac23;".data, "⅔".data),
    ("&hyphen;".data, "-".data),
    ("&frac13;".data, "⅓".data),
    ("&dagger;".data, "†".data),
    ("&pound;".data, "£".data),
    ("&sup2;".data, "²".data),
    ("&frac14;".data, "¼".data),
    ("&rsquo;".data, "’".data),
    ("&".data, "&amp;".data) ]

/-- First table alternative (in table order) matching at the head of `s`:
the regex-alternation matching rule of `entity_detector` at one position. -/
def findEntityMatch (tbl : List (List Char × List Char)) (s : List Char) :
    Option (List Char × List Char) :=
  match tbl with
  | [] => none
  | (k, v) :: rest => if k.isPrefixOf s then some (k, v) else findEntityMatch rest s

theorem findEntityMatch_eq_some (tbl : List (List Char × List Char))
    (s : List Char) (kv : List Char × List Char)
    (h : findEntityMatch tbl s = some kv) : kv ∈ tbl ∧ kv.1.isPrefixOf s = true := by
  induction tbl with
  | nil => simp [findEntityMatch] at h
  | cons p rest ih =>
    obtain ⟨k, v⟩ := p
    rw [findEntityMatch] at h
    by_cases hp : k.isPrefixOf s = true
    · simp only [hp, if_pos] at h
      obtain rfl := Option.some.injEq .. ▸ h
      exact ⟨List.mem_cons_self _ _, hp⟩
    · rw [if_neg (by simpa using hp)] at h
      obtain ⟨h1, h2⟩ := ih h
      exact ⟨List.mem_cons_of_mem _ h1, h2⟩

theorem sgml_keys_nonempty :
    ∀ kv ∈ sgml_entity_replacements, 0 < kv.1.length := by decide

theorem sgml_keys_head_amp :
    ∀ kv ∈ sgml_entity_replacements, kv.1.head? = some '&' := by decide

/-- Embedding of `entity_detector.sub(replace_sgml_entity, s)`: one
left-to-right pass; at each position, replace the first matching table
alternative and resume after it, else copy the character. -/
def substEntities (s : List Char) : List Char :=
  match s with
  | [] => []
  | c :: rest =>
    match h : findEntityMatch sgml_entity_replacements (c :: rest) with
    | some kv => kv.2 ++ substEntities ((c :: rest).drop kv.1.length)
    | none => c :: substEntities rest
termination_by s.length
decreasing_by
  · have hm := findEntityMatch_eq_some _ _ _ h
    have hpos : 0 < kv.1.length := sgml_keys_nonempty kv hm.1
    simp only [List.length_drop, List.length_cons]
    omega
  · simp

theorem substEntities_nil : substEntities [] = [] := by
  rw [substEntities]

theorem substEntities_cons_match (c : Char) (rest : List Char)
    (kv : List Char × List Char)
    (h : findEntityMatch sgml_entity_replacements (c :: rest) = some kv) :
    substEntities (c :: rest) = kv.2 ++ substEntities ((c :: rest).drop kv.1.length) := by
  rw [substEntities]
  split
  · rename_i kv2 h2
    rw [h] at h2
    injection h2 with h3
    rw [h3]
  · rename_i h2
    rw [h] at h2
    simp at h2

theorem substEntities_cons_none (c : Char) (rest : List Char)
    (h : findEntityMatch sgml_entity_replacements (c :: rest) = none) :
    substEntities (c :: rest) = c :: substEntities rest := by
  rw [substEntities]
  split
  · rename_i kv2 h2
    rw [h] at h2
    simp at h2
  · rfl

theorem findEntityMatch_none_of_head_ne (tbl : List (List Char × List Char))
    (hkeys : ∀ kv ∈ tbl, kv.1.head? = some '&')
    (c : Char) (s : List Char) (hc : c ≠ '&') :
    findEntityMatch tbl (c :: s) = none := by
  induction tbl with
  | nil => rfl
  | cons p rest ih =>
    obtain ⟨k, v⟩ := p
    have hk := hkeys (k, v) (List.mem_cons_self _ _)
    rw [findEntityMatch]
    cases k with
    | nil => simp at hk
    | cons k0 ks =>
      simp only [List.head?] at hk
      obtain rfl := Option.some.injEq .. ▸ hk
      have : ('&' :: ks).isPrefixOf (c :: s) = false := by
        simp only [List.isPrefixOf, Bool.and_eq_false_iff]
        left
        simpa using fun heq => hc heq.symm
      rw [this]
      simp only [Bool.false_eq_true, if_false]
      exact ih fun kv hm => hkeys kv (List.mem_cons_of_mem _ hm)

/-- Core consumption lemma: if no character of `a` is an ampersand (so no
alternative can fire inside `a`) and the alternation resolves the text at the
occurrence to the pair `(k, v)`, the pass copies `a`, emits `v`, and resumes
after the occurrence — the replacement output `v` is never rescanned. -/
theorem substEntities_append (a k v b : List Char) (ha : '&' ∉ a)
    (hfind : findEntityMatch sgml_entity_replacements (k ++ b) = some (k, v)) :
    substEntities (a ++ (k ++ b)) = a ++ v ++ substEntities b := by
  induction a with
  | nil =>
    have hk : 0 < k.length :=
      sgml_keys_nonempty (k, v) (findEntityMatch_eq_some _ _ _ hfind).1
    cases hkb : k ++ b with
    | nil =>
      rw [hkb] at hfind
      exact absurd (List.append_eq_nil.mp hkb).1 (by
        intro hnil
        rw [hnil] at hk
        simp at hk)
    | cons c rest =>
      have h2 := hfind
      rw [hkb] at h2
      have h3 := substEntities_cons_match c rest (k, v) h2
      simp only [List.nil_append]
      rw [h3, ← hkb]
      simp [List.drop_left]
  | cons c a0 ih =>
    have hc : c ≠ '&' := fun h => ha (h ▸ List.mem_cons_self c a0)
    have hnone : findEntityMatch sgml_entity_replacements
        (c :: (a0 ++ (k ++ b))) = none :=
      findEntityMatch_none_of_head_ne _ sgml_keys_head_amp c _ hc
    have ha0 : '&' ∉ a0 := fun h => ha (List.mem_cons_of_mem _ h)
    rw [List.cons_append, substEntities_cons_none c _ hnone, ih ha0]
    rfl

/-- C8: applying the legacy entity substitution replaces every occurrence of
a named character reference of the table in place with its Unicode
equivalent (the catch-all never fires on replacement output, which is not
rescanned), while a bare ampersand at which no named table entry starts
becomes the literal `&amp;`. The occurrence is located after an
ampersand-free prefix `a`; `hfind` states that the alternation matches the
named reference `k` there. -/
theorem sgml_entity_substitution (k v a b : List Char) (ha : '&' ∉ a)
    (hfind : findEntityMatch sgml_entity_replacements (k ++ b) = some (k, v))
    (hbare : ∀ kv ∈ sgml_entity_replacements, kv.1 ≠ "&".data →
      kv.1.isPrefixOf ('&' :: b) = false) :
    substEntities (a ++ (k ++ b)) = a ++ v ++ substEntities b ∧
    substEntities (a ++ ('&' :: b)) = a ++ "&amp;".data ++ substEntities b := by
  constructor
  · exact substEntities_append a k v b ha hfind
  · have hb : findEntityMatch sgml_entity_replacements ('&' :: b) =
        some ("&".data, "&amp;".data) := by
      have h1 := hbare ("&half;".data, "½".data) (by simp [sgml_entity_replacements]) (by decide)
      have h2 := hbare ("&frac34;".data, "¾".data) (by simp [sgml_entity_replacements]) (by decide)
      have h3 := hbare ("&bull;".data, "•".data) (by simp [sgml_entity_replacements]) (by decide)
      have h4 := hbare ("&yen;".data, "¥".data) (by simp [sgml_entity_replacements]) (by decide)
      have h5 := hbare ("&mdash;".data, "—".data) (by simp [sgml_entity_replacements]) (by decide)
      have h6 := hbare ("&cent;".data, "¢".data) (by simp [sgml_entity_replacements]) (by decide)
      have h7 := hbare ("&frac23;".data, "⅔".data) (by simp [sgml_entity_replacements]) (by decide)
      have h8 := hbare ("&hyphen;".data, "-".data) (by simp [sgml_entity_replacements]) (by decide)
      have h9 := hbare ("&frac13;".data, "⅓".data) (by simp [sgml_entity_replacements]) (by decide)
      have h10 := hbare ("&dagger;".data, "†".data) (by simp [sgml_entity_replacements]) (by decide)
      have h11 := hbare ("&pound;".data, "£".data) (by simp [sgml_entity_replacements]) (by decide)
      have h12 := hbare ("&sup2;".data, "²".data) (by simp [sgml_entity_replacements]) (by decide)
      have h13 := hbare ("&frac14;".data, "¼".data) (by simp [sgml_entity_replacements]) (by decide)
      have h14 := hbare ("&rsquo;".data, "’".data) (by simp [sgml_entity_replacements]) (by decide)
      have hamp : ("&".data).isPrefixOf ('&' :: b) = true := by
        simp [List.isPrefixOf]
      simp only [sgml_entity_replacements, findEntityMatch,
        h1, h2, h3, h4, h5, h6, h7, h8, h9, h10, h11, h12, h13, h14, hamp,
        Bool.false_eq_true, if_false, if_true]
    have := substEntities_append a "&".data "&amp;".data b ha (by simpa using hb)
    simpa using this

/-- Witness for C8 at a concrete fixture: an occurrence of `&yen;` becomes
`¥` in place (not `&amp;yen;`), and a bare ampersand that starts no table
entry becomes `&amp;`. -/
theorem sgml_entity_substitution_witness :
    substEntities ("A ".data ++ ("&yen;".data ++ " B".data)) =
      "A ".data ++ "¥".data ++ substEntities " B".data ∧
    substEntities ("A ".data ++ ('&' :: " B".data)) =
      "A ".data ++ "&amp;".data ++ substEntities " B".data :=
  sgml_entity_substitution "&yen;".data "¥".data "A ".data " B".data
    (by decide) (by decide) (by decide)

/-! ### Discovery crawler (`init_and_refresh_sitemap` in `download_transcripts.py`)

The store is the `transcripts_progress.db` SQLite database: the `sitemap`
table (primary key `url`) and the `process_data` key/value table. The remote
index is the root sitemap (a list of shard locations) plus a fetch function
yielding each shard's `(loc, lastmod)` entries. The connection runs with
`isolation_level=None` (autocommit), so the two `INSERT or ignore` statements
into `process_data` issued before the sizing guard are durable even when the
guard then raises. Dates are ISO strings compared lexicographically, exactly
as SQLite compares TEXT; the 3-day subtraction done via `datetime` is
abstracted as a parameter `dateMinus3`. -/

/-- One row of the `sitemap` table. -/
structure SitemapRow where
  url : String
  source_sitemap : String
  lastmod : String
deriving DecidableEq

/-- The discovery-relevant part of `transcripts_progress.db`. -/
structure Store where
  sitemap : List SitemapRow
  process_data : List (String × String)
deriving DecidableEq

/-- The remote document index: shard locations listed at the root, and the
entries each shard yields when fetched. -/
structure RemoteIndex where
  shards : List String
  fetch : String → List (String × String)

/-- SQLite `REPLACE into sitemap` keyed on `url`: overwrite the row with the
same key, else insert. -/
def upsertSitemapRow (tbl : List SitemapRow) (r : SitemapRow) : List SitemapRow :=
  match tbl with
  | [] => [r]
  | x :: rest => if x.url = r.url then r :: rest else x :: upsertSitemapRow rest r

/-- SQLite `INSERT or ignore into process_data`: keep the existing row for
the key if present, else append the new pair. -/
def insertOrIgnoreKV (tbl : List (String × String)) (key value : String) :
    List (String × String) :=
  if tbl.any (fun p => p.1 = key) then tbl else tbl ++ [(key, value)]

/-- SQLite `REPLACE into process_data`: overwrite the value at the key, else
insert. -/
def replaceKV (tbl : List (String × String)) (key value : String) :
    List (String × String) :=
  match tbl with
  | [] => [(key, value)]
  | x :: rest => if x.1 = key then (key, value) :: rest else x :: replaceKV rest key value

/-- Value stored at a key of `process_data`. -/
def lookupKV (tbl : List (String × String)) (key : String) : Option String :=
  match tbl with
  | [] => none
  | x :: rest => if x.1 = key then some x.2 else lookupKV rest key

/-- Overwrite a shard's entries into the `sitemap` table (the body of one
per-shard transaction). -/
def storeShardEntries (st : Store) (source : String)
    (entries : List (String × String)) : Store :=
  { st with sitemap :=
      entries.foldl (fun t e => upsertSitemapRow t ⟨e.1, source, e.2⟩) st.sitemap }

/-- Refresh phase: re-visit shards (already reversed into newest-first order),
overwrite each shard's entries, and stop after the first shard whose maximum
`lastmod` falls at or before the reference date. -/
def refreshLoop (remote : RemoteIndex) (reference_date : String) :
    List String → Store → Store
  | [], st => st
  | source :: rest, st =>
    let entries := remote.fetch source
    let st1 := storeShardEntries st source entries
    let max_lastmod := entries.foldl (fun m e => max e.2 m) ""
    if max_lastmod ≤ reference_date then st1
    else refreshLoop remote reference_date rest st1

/-- Embedding of `init_and_refresh_sitemap`.

Following the source order: read the root shard list; read the set of
previously retrieved `source_sitemap` values; `INSERT or ignore` the two
checkpoint keys with the current time; THEN apply the sizing guard
(`len(sitemaps) < 2217` raises `ValueError`); otherwise run the init phase
over not-yet-visited shards (in `reversed(sitemaps)` order), compute the
reference date from the stored `last_refresh_time` minus three days, run the
refresh phase with its early stop, and finally `REPLACE` `last_refresh_time`
with the completion time. The pair returned is (run outcome, store as left
behind by the autocommit connection). -/
def init_and_refresh_sitemap (remote : RemoteIndex) (now now2 : String)
    (dateMinus3 : String → String) (st : Store) : Except String Unit × Store :=
  let sitemaps := remote.shards
  let previously := st.sitemap.map (fun r => r.source_sitemap)
  let pd := insertOrIgnoreKV
    (insertOrIgnoreKV st.process_data "last_refresh_time" now)
    "last_full_refresh_time" now
  let st1 : Store := { st with process_data := pd }
  if sitemaps.length < 2217 then
    (.error "Unexpectedly small sitemap components found - exiting", st1)
  else
    let st2 := sitemaps.reverse.foldl (fun acc source =>
      if source ∈ previously then acc
      else storeShardEntries acc source (remote.fetch source)) st1
    let last_refresh_time := (lookupKV st2.process_data "last_refresh_time").getD ""
    let reference_date := dateMinus3 last_refresh_time
    let st3 := refreshLoop remote reference_date sitemaps.reverse st2
    let st4 : Store :=
      { st3 with process_data := replaceKV st3.process_data "last_refresh_time" now2 }
    (.ok (), st4)

/-- C2 as stated is false: on a store whose `process_data` table does not yet
hold the checkpoint keys (a first run), a guard failure still commits the two
checkpoint rows, so the store is not completely unmodified. Here the remote
root yields zero shards (< 2217), the run returns the fatal error, and
`process_data` changes from empty to the two checkpoint rows. -/
theorem init_and_refresh_guard_mutates_checkpoint :
    (init_and_refresh_sitemap ⟨[], fun _ => []⟩ "2026-01-01T00:00:00+00:00" "x"
        id ⟨[], []⟩).1 =
      .error "Unexpectedly small sitemap components found - exiting" ∧
    (init_and_refresh_sitemap ⟨[], fun _ => []⟩ "2026-01-01T00:00:00+00:00" "x"
        id ⟨[], []⟩).2.process_data =
      [("last_refresh_time", "2026-01-01T00:00:00+00:00"),
       ("last_full_refresh_time", "2026-01-01T00:00:00+00:00")] ∧
    (⟨[], []⟩ : Store).process_data = [] := by
  refine ⟨rfl, rfl, rfl⟩

/-- C2 amended: when the root yields fewer shards than the floor 2217, the
run aborts with the fatal error before any `sitemap` mutation — the
`sitemap` (IndexEntry) table is exactly the input table — and the only
possible store change is the initial `INSERT or ignore` of the two
checkpoint keys; in particular when both keys are already present (every run
after the first) the whole store is completely unmodified. -/
theorem init_and_refresh_guard_aborts_before_mutation
    (remote : RemoteIndex) (now now2 : String) (dateMinus3 : String → String)
    (st : Store) (hsmall : remote.shards.length < 2217) :
    (init_and_refresh_sitemap remote now now2 dateMinus3 st).1 =
      .error "Unexpectedly small sitemap components found - exiting" ∧
    (init_and_refresh_sitemap remote now now2 dateMinus3 st).2.sitemap = st.sitemap ∧
    (init_and_refresh_sitemap remote now now2 dateMinus3 st).2.process_data =
      insertOrIgnoreKV (insertOrIgnoreKV st.process_data "last_refresh_time" now)
        "last_full_refresh_time" now ∧
    ((st.process_data.any (fun p => p.1 = "last_refresh_time")) = true →
     (st.process_data.any (fun p => p.1 = "last_full_refresh_time")) = true →
     (init_and_refresh_sitemap remote now now2 dateMinus3 st).2 = st) := by
  refine ⟨?_, ?_, ?_, ?_⟩
  · simp [init_and_refresh_sitemap, hsmall]
  · simp [init_and_refresh_sitemap, hsmall]
  · simp [init_and_refresh_sitemap, hsmall]
  · intro h1 h2
    have hkv : insertOrIgnoreKV
        (insertOrIgnoreKV st.process_data "last_refresh_time" now)
        "last_full_refresh_time" now = st.process_data := by
      unfold insertOrIgnoreKV
      rw [if_pos h1, if_pos h2]
    simp [init_and_refresh_sitemap, hsmall, hkv]

/-- Witness for C2's amended theorem: a concrete store that already holds
both checkpoint keys is returned completely unchanged together with the
fatal error when the remote root shrinks to one shard. -/
theorem init_and_refresh_guard_aborts_before_mutation_witness :
    (init_and_refresh_sitemap ⟨["s1"], fun _ => [("u", "2024-01-01")]⟩
        "2026-01-01" "2026-01-02" id
        ⟨[⟨"u0", "s0", "2023-01-01"⟩],
         [("last_refresh_time", "2025-12-01"),
          ("last_full_refresh_time", "2025-11-01")]⟩).2 =
      ⟨[⟨"u0", "s0", "2023-01-01"⟩],
       [("last_refresh_time", "2025-12-01"),
        ("last_full_refresh_time", "2025-11-01")]⟩ :=
  (init_and_refresh_guard_aborts_before_mutation _ _ _ _ _ (by decide)).2.2.2
    (by decide) (by decide)

/-! ### Staleness selection (`identify_transcripts_to_retrieve`,
`retrieve_transcripts` selection query)

`identify_transcripts_to_retrieve` scans `sitemap` rows whose URL contains
`hansard` (SQL `instr`), extracts the page number from the URL's query
(`urlparse`/`parse_qs`/`split` — abstracted below as a parameter `pageNo`),
and for first-page-of-day documents (`page_no == "0000"`) does
`INSERT or ignore (url, retrieved) values (url, '2000-01-01')` followed by
`UPDATE ... set lastmod`. `retrieve_transcripts` then selects
`SELECT url from hansard_transcript where retrieved < lastmod order by
lastmod` — TEXT comparison, NULL comparisons select nothing. -/

/-- One row of the `hansard_transcript` table. -/
structure TranscriptRow where
  url : String
  lastmod : Option String
  retrieved : Option String
  html_ref_page : Option String
  transcript_pdf_url : Option String
  transcript_markup_url : Option String
  transcript_markup_type : Option String
  transcript_markup : Option String
deriving DecidableEq

/-- A fresh `hansard_transcript` row as inserted by
`identify_transcripts_to_retrieve`: only `url` and the sentinel `retrieved`
date are set. -/
def freshTranscriptRow (url retrieved : String) : TranscriptRow :=
  ⟨url, none, some retrieved, none, none, none, none, none⟩

/-- `sub` occurs contiguously inside `s` (SQL `instr(s, sub) > 0`). -/
def containsSub (sub : List Char) : List Char → Bool
  | [] => sub.isEmpty
  | c :: rest => sub.isPrefixOf (c :: rest) || containsSub sub rest

/-- `INSERT or ignore into hansard_transcript(url, retrieved)`: keep the
existing row keyed by `url` if present, else append a fresh row with the
sentinel retrieved date. -/
def insertOrIgnoreTranscript (tbl : List TranscriptRow) (url retrieved : String) :
    List TranscriptRow :=
  if tbl.any (fun r => r.url = url) then tbl
  else tbl ++ [freshTranscriptRow url retrieved]

/-- `UPDATE hansard_transcript set lastmod = ? where url = ?`. -/
def updateTranscriptLastmod (tbl : List TranscriptRow) (url lastmod : String) :
    List TranscriptRow :=
  tbl.map (fun r => if r.url = url then { r with lastmod := some lastmod } else r)

/-- Embedding of `identify_transcripts_to_retrieve`: the upsert pass over the
sitemap. The URL-query parsing chain (`urlparse`, `parse_qs`, quoted-id
split) is abstracted as the parameter `pageNo`; the claims do not depend on
its internals. -/
def identify_transcripts_to_retrieve (pageNo : String → String)
    (sitemapRows : List SitemapRow) (tbl : List TranscriptRow) : List TranscriptRow :=
  sitemapRows.foldl (fun acc row =>
    if containsSub "hansard".data row.url.data then
      if pageNo row.url = "0000" then
        updateTranscriptLastmod
          (insertOrIgnoreTranscript acc row.url "2000-01-01") row.url row.lastmod
      else acc
    else acc) tbl

/-- `retrieved < lastmod` under SQLite semantics: TEXT comparison when both
are non-NULL, never satisfied when either is NULL. -/
def eligibleForRetrieval (r : TranscriptRow) : Bool :=
  match r.retrieved, r.lastmod with
  | some ret, some lm => decide (ret < lm)
  | _, _ => false

/-- Comparison used by `order by lastmod` over the selected rows (all of
which have non-NULL `lastmod`). -/
def lastmodLe (a b : TranscriptRow) : Bool :=
  decide (a.lastmod.getD "" ≤ b.lastmod.getD "")

/-- The rows produced by `SELECT url from hansard_transcript where
retrieved < lastmod order by lastmod` (before projecting `url`). -/
def selectionRows (tbl : List TranscriptRow) : List TranscriptRow :=
  (tbl.filter eligibleForRetrieval).mergeSort lastmodLe

/-- The `to_retrieve` list of `retrieve_transcripts`. -/
def toRetrieve (tbl : List TranscriptRow) : List String :=
  (selectionRows tbl).map (fun r => r.url)

theorem lastmodLe_trans (a b c : TranscriptRow) (h1 : lastmodLe a b = true)
    (h2 : lastmodLe b c = true) : lastmodLe a c = true := by
  simp only [lastmodLe, decide_eq_true_eq] at h1 h2 ⊢
  exact le_trans h1 h2

theorem lastmodLe_total (a b : TranscriptRow) : (lastmodLe a b || lastmodLe b a) = true := by
  simp only [lastmodLe, Bool.or_eq_true, decide_eq_true_eq]
  exact le_total _ _

/-- C9: the retrieval run selects exactly the rows satisfying
`retrieved < lastmod` (a permutation of the filter — NULL fields never
qualify), processes them in ascending `lastmod` order, and a newly
discovered first-page-of-day document is inserted with the epoch sentinel
retrieved date `2000-01-01` (so it is eligible exactly when its `lastmod` is
later than the sentinel). -/
theorem retrieve_selection_spec (pageNo : String → String)
    (tbl : List TranscriptRow) (src url lm : String)
    (hnew : tbl.any (fun r => r.url = url) = false)
    (hhans : containsSub "hansard".data url.data = true)
    (hpage : pageNo url = "0000") :
    (selectionRows tbl).Perm (tbl.filter eligibleForRetrieval) ∧
    (∀ r, r ∈ selectionRows tbl → eligibleForRetrieval r = true) ∧
    List.Pairwise (fun a b => a.lastmod.getD "" ≤ b.lastmod.getD "")
      (selectionRows tbl) ∧
    identify_transcripts_to_retrieve pageNo [⟨url, src, lm⟩] tbl =
      updateTranscriptLastmod (tbl ++ [freshTranscriptRow url "2000-01-01"]) url lm ∧
    (eligibleForRetrieval { freshTranscriptRow url "2000-01-01" with lastmod := some lm } =
      decide ("2000-01-01" < lm)) := by
  refine ⟨?_, ?_, ?_, ?_, ?_⟩
  · exact List.mergeSort_perm _ _
  · intro r hr
    have hmem : r ∈ tbl.filter eligibleForRetrieval :=
      (List.mergeSort_perm _ _).mem_iff.mp hr
    exact (List.mem_filter.mp hmem).2
  · have := List.sorted_mergeSort lastmodLe_trans lastmodLe_total
      (tbl.filter eligibleForRetrieval)
    refine this.imp ?_
    intro a b hab
    simpa [lastmodLe] using hab
  · simp only [identify_transcripts_to_retrieve, List.foldl_cons, List.foldl_nil,
      hhans, hpage, insertOrIgnoreTranscript, hnew, if_true,
      Bool.false_eq_true, if_false, reduceIte]
  · rfl

/-- Witness for C9 at a concrete table (a stale row, an up-to-date row, a
sentinel-dated stale row and a NULL-`lastmod` row) and a concrete newly
discovered first-page-of-day URL. -/
theorem retrieve_selection_spec_witness :
    (selectionRows
        [⟨"u1", some "2024-03-05", some "2024-01-01", none, none, none, none, none⟩,
         ⟨"u2", some "2024-02-01", some "2024-02-01", none, none, none, none, none⟩,
         ⟨"u3", some "2024-01-20", some "2000-01-01", none, none, none, none, none⟩,
         ⟨"u4", none, some "2000-01-01", none, none, none, none, none⟩]).Perm
      (List.filter eligibleForRetrieval
        [⟨"u1", some "2024-03-05", some "2024-01-01", none, none, none, none, none⟩,
         ⟨"u2", some "2024-02-01", some "2024-02-01", none, none, none, none, none⟩,
         ⟨"u3", some "2024-01-20", some "2000-01-01", none, none, none, none, none⟩,
         ⟨"u4", none, some "2000-01-01", none, none, none, none, none⟩]) ∧
    (∀ r, r ∈ selectionRows
        [⟨"u1", some "2024-03-05", some "2024-01-01", none, none, none, none, none⟩,
         ⟨"u2", some "2024-02-01", some "2024-02-01", none, none, none, none, none⟩,
         ⟨"u3", some "2024-01-20", some "2000-01-01", none, none, none, none, none⟩,
         ⟨"u4", none, some "2000-01-01", none, none, none, none, none⟩] →
      eligibleForRetrieval r = true) ∧
    List.Pairwise (fun a b => a.lastmod.getD "" ≤ b.lastmod.getD "")
      (selectionRows
        [⟨"u1", some "2024-03-05", some "2024-01-01", none, none, none, none, none⟩,
         ⟨"u2", some "2024-02-01", some "2024-02-01", none, none, none, none, none⟩,
         ⟨"u3", some "2024-01-20", some "2000-01-01", none, none, none, none, none⟩,
         ⟨"u4", none, some "2000-01-01", none, none, none, none, none⟩]) ∧
    identify_transcripts_to_retrieve (fun _ => "0000")
        [⟨"https://x/hansardr/2024-03-05/0000", "s", "2024-03-05"⟩]
        [⟨"u1", some "2024-03-05", some "2024-01-01", none, none, none, none, none⟩,
         ⟨"u2", some "2024-02-01", some "2024-02-01", none, none, none, none, none⟩,
         ⟨"u3", some "2024-01-20", some "2000-01-01", none, none, none, none, none⟩,
         ⟨"u4", none, some "2000-01-01", none, none, none, none, none⟩] =
      updateTranscriptLastmod
        ([⟨"u1", some "2024-03-05", some "2024-01-01", none, none, none, none, none⟩,
          ⟨"u2", some "2024-02-01", some "2024-02-01", none, none, none, none, none⟩,
          ⟨"u3", some "2024-01-20", some "2000-01-01", none, none, none, none, none⟩,
          ⟨"u4", none, some "2000-01-01", none, none, none, none, none⟩] ++
          [freshTranscriptRow "https://x/hansardr/2024-03-05/0000" "2000-01-01"])
        "https://x/hansardr/2024-03-05/0000" "2024-03-05" ∧
    (eligibleForRetrieval
        { freshTranscriptRow "https://x/hansardr/2024-03-05/0000" "2000-01-01" with
          lastmod := some "2024-03-05" } =
      decide ("2000-01-01" < "2024-03-05")) :=
  retrieve_selection_spec (fun _ => "0000")
    [⟨"u1", some "2024-03-05", some "2024-01-01", none, none, none, none, none⟩,
     ⟨"u2", some "2024-02-01", some "2024-02-01", none, none, none, none, none⟩,
     ⟨"u3", some "2024-01-20", some "2000-01-01", none, none, none, none, none⟩,
     ⟨"u4", none, some "2000-01-01", none, none, none, none, none⟩]
    "s" "https://x/hansardr/2024-03-05/0000" "2024-03-05"
    (by decide) (by decide) rfl

/-! ### Retrieval loop (`retrieve_transcripts` body)

The per-item body fetches the reference page, resolves the markup link and
commits one `UPDATE` per item; any uncaught exception triggers `rollback`
(the item's transaction is undone, leaving the table as before the item),
increments the run-wide `failures` counter, and the loop breaks once
`failures >= 10`, else continues with the next item (no per-item retry).
The network interactions are inputs here: each item of the batch carries its
outcome (the update the transaction would commit, or a failure). -/

/-- The column values committed by one successful item's `UPDATE`. -/
structure RowUpdate where
  retrieved : String
  html_ref_page : Option String
  transcript_pdf_url : Option String
  transcript_markup_url : Option String
  transcript_markup_type : Option String
  transcript_markup : Option String
deriving DecidableEq

/-- Result of one item's fetch/resolve protocol: the update its transaction
commits, or an uncaught per-item error. -/
inductive ItemOutcome where
  | ok (upd : RowUpdate)
  | fail
deriving DecidableEq

/-- Apply one committed `UPDATE ... where url = :url` to a row. The key is
never changed. -/
def applyUpd1 (u : RowUpdate) (r : TranscriptRow) : TranscriptRow :=
  { r with retrieved := some u.retrieved, html_ref_page := u.html_ref_page,
           transcript_pdf_url := u.transcript_pdf_url,
           transcript_markup_url := u.transcript_markup_url,
           transcript_markup_type := u.transcript_markup_type,
           transcript_markup := u.transcript_markup }

/-- `UPDATE hansard_transcript set ... where url = ?`. -/
def applyUpdate (tbl : List TranscriptRow) (url : String) (u : RowUpdate) :
    List TranscriptRow :=
  tbl.map (fun r => if r.url = url then applyUpd1 u r else r)

/-- One loop iteration's effect on the table: a success commits its update,
a failure rolls its transaction back (table unchanged). -/
def retrieveStep (tbl : List TranscriptRow) (p : String × ItemOutcome) :
    List TranscriptRow :=
  match p.2 with
  | .ok upd => applyUpdate tbl p.1 upd
  | .fail => tbl

/-- Embedding of the `retrieve_transcripts` for-loop with the run-wide
failure counter: `if failures >= 10: break else: continue`. -/
def retrieveLoop : List (String × ItemOutcome) → Nat → List TranscriptRow →
    List TranscriptRow
  | [], _, tbl => tbl
  | (url, .ok upd) :: rest, failures, tbl =>
    retrieveLoop rest failures (applyUpdate tbl url upd)
  | (_, .fail) :: rest, failures, tbl =>
    if failures + 1 ≥ 10 then tbl else retrieveLoop rest (failures + 1) tbl

/-- The retrieval run over a batch, starting with zero failures. -/
def retrieve_transcripts (items : List (String × ItemOutcome))
    (tbl : List TranscriptRow) : List TranscriptRow :=
  retrieveLoop items 0 tbl

/-- Number of items the loop starts before halting, given the current
failure count. -/
def stopLen : List (String × ItemOutcome) → Nat → Nat
  | [], _ => 0
  | (_, .ok _) :: rest, failures => 1 + stopLen rest failures
  | (_, .fail) :: rest, failures =>
    if failures + 1 ≥ 10 then 1 else 1 + stopLen rest (failures + 1)

/-- The same batch processed with no circuit breaker (pure per-item fold). -/
def runAllItems (items : List (String × ItemOutcome)) (tbl : List TranscriptRow) :
    List TranscriptRow :=
  items.foldl retrieveStep tbl

/-- Failures in a batch prefix. -/
def countFail (items : List (String × ItemOutcome)) : Nat :=
  items.countP (fun p => match p.2 with | .fail => true | .ok _ => false)

/-- Row of the table keyed by `url`. -/
def findRow : List TranscriptRow → String → Option TranscriptRow
  | [], _ => none
  | r :: rest, url => if r.url = url then some r else findRow rest url

theorem retrieveLoop_eq_take (items : List (String × ItemOutcome)) :
    ∀ (failures : Nat) (tbl : List TranscriptRow),
    retrieveLoop items failures tbl = runAllItems (items.take (stopLen items failures)) tbl := by
  induction items with
  | nil => intro failures tbl; rfl
  | cons p rest ih =>
    intro failures tbl
    obtain ⟨url, out⟩ := p
    cases out with
    | ok upd =>
      rw [retrieveLoop, stopLen]
      rw [show 1 + stopLen rest failures = stopLen rest failures + 1 from Nat.add_comm _ _]
      rw [List.take_succ_cons]
      exact ih failures (applyUpdate tbl url upd)
    | fail =>
      rw [retrieveLoop, stopLen]
      by_cases hf : failures + 1 ≥ 10
      · rw [if_pos hf, if_pos hf]
        rfl
      · rw [if_neg hf, if_neg hf]
        rw [show 1 + stopLen rest (failures + 1) = stopLen rest (failures + 1) + 1
          from Nat.add_comm _ _]
        rw [List.take_succ_cons]
        exact ih (failures + 1) tbl

theorem countFail_cons_ok (url : String) (upd : RowUpdate)
    (rest : List (String × ItemOutcome)) :
    countFail ((url, ItemOutcome.ok upd) :: rest) = countFail rest := by
  simp [countFail, List.countP_cons]

theorem countFail_cons_fail (url : String) (rest : List (String × ItemOutcome)) :
    countFail ((url, ItemOutcome.fail) :: rest) = countFail rest + 1 := by
  simp [countFail, List.countP_cons]

theorem stopLen_spec (items : List (String × ItemOutcome)) :
    ∀ (failures : Nat), failures < 10 →
    (countFail items < 10 - failures → stopLen items failures = items.length) ∧
    (10 - failures ≤ countFail items →
      countFail (items.take (stopLen items failures)) = 10 - failures ∧
      ∃ url, (items.take (stopLen items failures)).getLast? =
        some (url, ItemOutcome.fail)) := by
  induction items with
  | nil =>
    intro failures hf
    constructor
    · intro _; rfl
    · intro habs
      rw [show countFail [] = 0 from rfl] at habs
      omega
  | cons p rest ih =>
    intro failures hf
    obtain ⟨url, out⟩ := p
    cases out with
    | ok upd =>
      rw [countFail_cons_ok, stopLen]
      constructor
      · intro hlt
        rw [(ih failures hf).1 hlt, List.length_cons]
        omega
      · intro hge
        obtain ⟨h1, url2, h2⟩ := (ih failures hf).2 hge
        have hne : rest.take (stopLen rest failures) ≠ [] := by
          intro habs
          rw [habs] at h1
          rw [show countFail [] = 0 from rfl] at h1
          omega
        rw [show 1 + stopLen rest failures = stopLen rest failures + 1 from Nat.add_comm _ _,
          List.take_succ_cons]
        refine ⟨by rw [countFail_cons_ok]; exact h1, url2, ?_⟩
        obtain ⟨q, qs, hq⟩ := List.exists_cons_of_ne_nil hne
        rw [hq, List.getLast?_cons_cons, ← hq]
        exact h2
    | fail =>
      rw [countFail_cons_fail, stopLen]
      by_cases hbreak : failures + 1 ≥ 10
      · have hf9 : failures = 9 := by omega
        rw [if_pos hbreak]
        constructor
        · intro hlt; omega
        · intro _
          subst hf9
          exact ⟨by simp [countFail_cons_fail, countFail], url, by simp⟩
      · rw [if_neg hbreak]
        have hf1 : failures + 1 < 10 := by omega
        constructor
        · intro hlt
          rw [show 1 + stopLen rest (failures + 1) = stopLen rest (failures + 1) + 1
            from Nat.add_comm _ _, (ih (failures + 1) hf1).1 (by omega), List.length_cons]
        · intro hge
          obtain ⟨h1, url2, h2⟩ := (ih (failures + 1) hf1).2 (by omega)
          have hne : rest.take (stopLen rest (failures + 1)) ≠ [] := by
            intro habs
            rw [habs] at h1
            rw [show countFail [] = 0 from rfl] at h1
            omega
          rw [show 1 + stopLen rest (failures + 1) = stopLen rest (failures + 1) + 1
            from Nat.add_comm _ _, List.take_succ_cons]
          refine ⟨by rw [countFail_cons_fail]; omega, url2, ?_⟩
          obtain ⟨q, qs, hq⟩ := List.exists_cons_of_ne_nil hne
          rw [hq, List.getLast?_cons_cons, ← hq]
          exact h2

theorem findRow_applyUpdate (tbl : List TranscriptRow) (u url : String)
    (upd : RowUpdate) :
    findRow (applyUpdate tbl u upd) url =
      if u = url then (findRow tbl url).map (applyUpd1 upd) else findRow tbl url := by
  induction tbl with
  | nil => by_cases h : u = url <;> simp [applyUpdate, findRow, h]
  | cons r rest ih =>
    have hurl : (applyUpd1 upd r).url = r.url := rfl
    rw [applyUpdate, List.map_cons]
    by_cases h1 : r.url = u
    · rw [if_pos h1]
      by_cases h2 : u = url
      · rw [if_pos h2, findRow, findRow]
        rw [if_pos (hurl.trans (h1.trans h2)), if_pos (h1.trans h2)]
        rfl
      · have h3 : r.url ≠ url := by rw [h1]; exact h2
        have h5 : (applyUpd1 upd r).url ≠ url := by rw [hurl]; exact h3
        rw [if_neg h2, findRow, findRow, if_neg h5, if_neg h3]
        show findRow (applyUpdate rest u upd) url = findRow rest url
        rw [ih, if_neg h2]
    · rw [if_neg h1]
      by_cases h3 : r.url = url
      · have h4 : u ≠ url := fun heq => h1 (h3.trans heq.symm)
        rw [if_neg h4, findRow, findRow, if_pos h3, if_pos h3]
      · rw [findRow, findRow, if_neg h3, if_neg h3]
        show findRow (applyUpdate rest u upd) url = _
        rw [ih]

theorem findRow_runAllItems_of_not_mem (items : List (String × ItemOutcome)) :
    ∀ (tbl : List TranscriptRow) (url : String), url ∉ items.map Prod.fst →
    findRow (runAllItems items tbl) url = findRow tbl url := by
  induction items with
  | nil => intro tbl url _; rfl
  | cons p rest ih =>
    intro tbl url hmem
    have hne : p.1 ≠ url := by
      intro heq
      apply hmem
      rw [List.map_cons, ← heq]
      exact List.mem_cons_self _ _
    rw [runAllItems, List.foldl_cons]
    have := ih (retrieveStep tbl p) url (fun h => hmem (List.mem_cons_of_mem _ h))
    rw [runAllItems] at this
    rw [this]
    obtain ⟨u, out⟩ := p
    cases out with
    | ok upd =>
      rw [retrieveStep]
      rw [findRow_applyUpdate, if_neg hne]
    | fail => rfl

/-- C4: in the retrieval run every uncaught per-item error rolls back that
item's transaction (the table is untouched by a failed item) and processing
proceeds item by item with no per-item retry: the run equals the plain
per-item fold over the processed prefix. The run halts exactly when the
run-wide failure counter reaches 10: with fewer than 10 failures the whole
batch is processed, otherwise the processed prefix contains exactly 10
failures and ends at the tenth failure (the following item is never
started). Every item committed before the halt remains in the final table
with exactly its committed column values. -/
theorem retrieve_transcripts_failure_isolation
    (items : List (String × ItemOutcome)) (tbl : List TranscriptRow)
    (hnodup : (items.map Prod.fst).Nodup) :
    retrieve_transcripts items tbl = runAllItems (items.take (stopLen items 0)) tbl ∧
    (∀ (t : List TranscriptRow) (u : String), retrieveStep t (u, ItemOutcome.fail) = t) ∧
    (countFail items < 10 → stopLen items 0 = items.length) ∧
    (10 ≤ countFail items →
      countFail (items.take (stopLen items 0)) = 10 ∧
      ∃ url, (items.take (stopLen items 0)).getLast? = some (url, ItemOutcome.fail)) ∧
    (∀ url upd, (url, ItemOutcome.ok upd) ∈ items.take (stopLen items 0) →
      findRow (retrieve_transcripts items tbl) url =
        (findRow tbl url).map (applyUpd1 upd)) := by
  have hrun : retrieve_transcripts items tbl =
      runAllItems (items.take (stopLen items 0)) tbl :=
    retrieveLoop_eq_take items 0 tbl
  refine ⟨hrun, fun t u => rfl, ?_, ?_, ?_⟩
  · intro hlt
    exact (stopLen_spec items 0 (by omega)).1 (by omega)
  · intro hge
    have h := (stopLen_spec items 0 (by omega)).2 (by omega)
    exact ⟨by omega, h.2⟩
  · intro url upd hmem
    obtain ⟨l1, l2, hsplit⟩ := List.append_of_mem hmem
    have hsub : (items.take (stopLen items 0)).Sublist items := List.take_sublist _ _
    have hnodup2 : ((items.take (stopLen items 0)).map Prod.fst).Nodup :=
      hnodup.sublist (hsub.map Prod.fst)
    rw [hsplit, List.map_append, List.map_cons] at hnodup2
    obtain ⟨hn1, hn2, hdisj⟩ := List.nodup_append.mp hnodup2
    have hu2 : url ∉ l2.map Prod.fst := (List.nodup_cons.mp hn2).1
    have hu1 : url ∉ l1.map Prod.fst := fun hmem1 => hdisj hmem1 (List.mem_cons_self _ _)
    rw [hrun, hsplit]
    rw [runAllItems, List.foldl_append, List.foldl_cons]
    have hstep : List.foldl retrieveStep
        (retrieveStep (List.foldl retrieveStep tbl l1) (url, ItemOutcome.ok upd)) l2 =
        runAllItems l2 (retrieveStep (runAllItems l1 tbl) (url, ItemOutcome.ok upd)) := rfl
    rw [hstep, findRow_runAllItems_of_not_mem l2 _ url hu2]
    rw [show retrieveStep (runAllItems l1 tbl) (url, ItemOutcome.ok upd) =
      applyUpdate (runAllItems l1 tbl) url upd from rfl]
    rw [findRow_applyUpdate, if_pos rfl,
      findRow_runAllItems_of_not_mem l1 tbl url hu1]

/-- Witness for C4: a batch with one leading success, ten failures and one
trailing item. The run halts after the tenth failure — the twelfth item is
never started — and the first item's committed update survives in the final
table. -/
theorem retrieve_transcripts_failure_isolation_witness :
    (retrieve_transcripts
        [("u1", ItemOutcome.ok ⟨"2026-01-05", none, none, none, none, some "m"⟩),
         ("f1", ItemOutcome.fail), ("f2", ItemOutcome.fail), ("f3", ItemOutcome.fail),
         ("f4", ItemOutcome.fail), ("f5", ItemOutcome.fail), ("f6", ItemOutcome.fail),
         ("f7", ItemOutcome.fail), ("f8", ItemOutcome.fail), ("f9", ItemOutcome.fail),
         ("f10", ItemOutcome.fail), ("u12", ItemOutcome.ok ⟨"2026-01-06", none, none, none, none, some "n"⟩)]
        [freshTranscriptRow "u1" "2000-01-01", freshTranscriptRow "u12" "2000-01-01"] =
      runAllItems
        (List.take (stopLen
          [("u1", ItemOutcome.ok ⟨"2026-01-05", none, none, none, none, some "m"⟩),
           ("f1", ItemOutcome.fail), ("f2", ItemOutcome.fail), ("f3", ItemOutcome.fail),
           ("f4", ItemOutcome.fail), ("f5", ItemOutcome.fail), ("f6", ItemOutcome.fail),
           ("f7", ItemOutcome.fail), ("f8", ItemOutcome.fail), ("f9", ItemOutcome.fail),
           ("f10", ItemOutcome.fail), ("u12", ItemOutcome.ok ⟨"2026-01-06", none, none, none, none, some "n"⟩)] 0)
          [("u1", ItemOutcome.ok ⟨"2026-01-05", none, none, none, none, some "m"⟩),
           ("f1", ItemOutcome.fail), ("f2", ItemOutcome.fail), ("f3", ItemOutcome.fail),
           ("f4", ItemOutcome.fail), ("f5", ItemOutcome.fail), ("f6", ItemOutcome.fail),
           ("f7", ItemOutcome.fail), ("f8", ItemOutcome.fail), ("f9", ItemOutcome.fail),
           ("f10", ItemOutcome.fail), ("u12", ItemOutcome.ok ⟨"2026-01-06", none, none, none, none, some "n"⟩)])
        [freshTranscriptRow "u1" "2000-01-01", freshTranscriptRow "u12" "2000-01-01"]) ∧
    (stopLen
      [("u1", ItemOutcome.ok ⟨"2026-01-05", none, none, none, none, some "m"⟩),
       ("f1", ItemOutcome.fail), ("f2", ItemOutcome.fail), ("f3", ItemOutcome.fail),
       ("f4", ItemOutcome.fail), ("f5", ItemOutcome.fail), ("f6", ItemOutcome.fail),
       ("f7", ItemOutcome.fail), ("f8", ItemOutcome.fail), ("f9", ItemOutcome.fail),
       ("f10", ItemOutcome.fail), ("u12", ItemOutcome.ok ⟨"2026-01-06", none, none, none, none, some "n"⟩)] 0 = 11) ∧
    findRow (retrieve_transcripts
        [("u1", ItemOutcome.ok ⟨"2026-01-05", none, none, none, none, some "m"⟩),
         ("f1", ItemOutcome.fail), ("f2", ItemOutcome.fail), ("f3", ItemOutcome.fail),
         ("f4", ItemOutcome.fail), ("f5", ItemOutcome.fail), ("f6", ItemOutcome.fail),
         ("f7", ItemOutcome.fail), ("f8", ItemOutcome.fail), ("f9", ItemOutcome.fail),
         ("f10", ItemOutcome.fail), ("u12", ItemOutcome.ok ⟨"2026-01-06", none, none, none, none, some "n"⟩)]
        [freshTranscriptRow "u1" "2000-01-01", freshTranscriptRow "u12" "2000-01-01"]) "u1" =
      some ⟨"u1", none, some "2026-01-05", none, none, none, none, some "m"⟩ ∧
    findRow (retrieve_transcripts
        [("u1", ItemOutcome.ok ⟨"2026-01-05", none, none, none, none, some "m"⟩),
         ("f1", ItemOutcome.fail), ("f2", ItemOutcome.fail), ("f3", ItemOutcome.fail),
         ("f4", ItemOutcome.fail), ("f5", ItemOutcome.fail), ("f6", ItemOutcome.fail),
         ("f7", ItemOutcome.fail), ("f8", ItemOutcome.fail), ("f9", ItemOutcome.fail),
         ("f10", ItemOutcome.fail), ("u12", ItemOutcome.ok ⟨"2026-01-06", none, none, none, none, some "n"⟩)]
        [freshTranscriptRow "u1" "2000-01-01", freshTranscriptRow "u12" "2000-01-01"]) "u12" =
      some (freshTranscriptRow "u12" "2000-01-01") := by
  have h := retrieve_transcripts_failure_isolation
    [("u1", ItemOutcome.ok ⟨"2026-01-05", none, none, none, none, some "m"⟩),
     ("f1", ItemOutcome.fail), ("f2", ItemOutcome.fail), ("f3", ItemOutcome.fail),
     ("f4", ItemOutcome.fail), ("f5", ItemOutcome.fail), ("f6", ItemOutcome.fail),
     ("f7", ItemOutcome.fail), ("f8", ItemOutcome.fail), ("f9", ItemOutcome.fail),
     ("f10", ItemOutcome.fail), ("u12", ItemOutcome.ok ⟨"2026-01-06", none, none, none, none, some "n"⟩)]
    [freshTranscriptRow "u1" "2000-01-01", freshTranscriptRow "u12" "2000-01-01"]
    (by decide)
  refine ⟨h.1, by decide, ?_, by decide⟩
  have h5 := h.2.2.2.2 "u1" ⟨"2026-01-05", none, none, none, none, some "m"⟩ (by decide)
  rw [h5]
  decide

/-! ### Markup normalizer tree walk (`process_xml_transcript`)

XML elements as produced by `xml.etree.ElementTree`: a tag, an attribute
dict, optional leading text, the child list, and the optional tail text
following the element. `itertext` flattens all descendant text in document
order (text, then for each child its `itertext` followed by its tail). -/

/-- An ElementTree element. -/
inductive Elem where
  | node (tag : String) (attrs : List (String × String)) (text : Option String)
      (children : List Elem) (tail : Option String)

def Elem.tag : Elem → String
  | .node t _ _ _ _ => t

def Elem.attrs : Elem → List (String × String)
  | .node _ a _ _ _ => a

def Elem.text : Elem → Option String
  | .node _ _ x _ _ => x

def Elem.children : Elem → List Elem
  | .node _ _ _ c _ => c

def Elem.tail : Elem → Option String
  | .node _ _ _ _ t => t

mutual

/-- Structural size of an element (for traversal termination measures). -/
def elemSize : Elem → Nat
  | .node _ _ _ children _ => 1 + elemsSize children

/-- Structural size of a forest. -/
def elemsSize : List Elem → Nat
  | [] => 0
  | c :: rest => elemSize c + elemsSize rest

end

theorem elemSize_pos (e : Elem) : 0 < elemSize e := by
  obtain ⟨t, a, x, c, tl⟩ := e
  rw [elemSize]
  omega

mutual

/-- `"".join(element.itertext())`: own text, then each child's `itertext`
followed by that child's tail. -/
def itertext : Elem → String
  | .node _ _ text children _ => (text.getD "") ++ itertextList children

def itertextList : List Elem → String
  | [] => ""
  | c :: rest => itertext c ++ (c.tail.getD "") ++ itertextList rest

end

/-- `" ".join(s.split())`: collapse whitespace runs to single spaces and trim. -/
def normaliseWs (s : String) : String :=
  " ".intercalate ((s.split (fun c => c.isWhitespace)).filter (fun w => w ≠ ""))

/-- Embedding of `remove_para_markup`. -/
def remove_para_markup (paragraph : Elem) : String :=
  normaliseWs (itertext paragraph)

/-- A Python dict with string keys as built by the source's comprehensions:
an insertion-ordered association list, later duplicate keys overwriting in
place. -/
abbrev Dict : Type := List (String × Option String)

/-- Insert with dict-overwrite semantics (first insertion position kept). -/
def dictInsert (d : Dict) (k : String) (v : Option String) : Dict :=
  if d.any (fun p => p.1 = k) then
    d.map (fun p => if p.1 = k then (k, v) else p)
  else d ++ [(k, v)]

/-- `d.get(k)`: `none` when the key is absent, else the stored value. -/
def dictGet (d : Dict) (k : String) : Option (Option String) :=
  (d.find? (fun p => p.1 = k)).map Prod.snd

/-- `{elem.tag: elem.text for elem in element}`. -/
def childDict (e : Elem) : Dict :=
  e.children.foldl (fun d c => dictInsert d c.tag c.text) ([] : Dict)

/-- `element.find(t)`: first direct child with the given tag. -/
def findChild (e : Elem) (t : String) : Option Elem :=
  e.children.find? (fun c => c.tag = t)

/-- `element.findall(t)`: all direct children with the given tag, in order. -/
def findallChildren (e : Elem) (t : String) : List Elem :=
  e.children.filter (fun c => c.tag = t)

/-- `anchor.attrib` lookup. -/
def attrGet (attrs : List (String × String)) (k : String) : Option String :=
  (attrs.find? (fun p => p.1 = k)).map Prod.snd

/-- Embedding of `process_debate_info`. Note the first Python condition is
`element.tag in ("debate")` — a parenthesised STRING, not a tuple — so it is
a substring test of the tag inside the word `debate`; the second condition
is a genuine tuple membership including the documented misspellings. -/
def process_debate_info (element : Elem) : List Dict :=
  if containsSub element.tag.data "debate".data then
    (findallChildren element "debateinfo" ++ findallChildren element "debate.info").map
      childDict
  else if element.tag ∈ ["subdebate.1", "subdebate.2", "subdebate.3", "subdebate.4",
      "subdeabte.1", "subdebate"] then
    (findallChildren element "subdebateinfo" ++
      findallChildren element "subdebateinfo.1").map childDict
  else []

/-- Embedding of the `TranscriptContext` dataclass. `debate_info` is the
accumulated tuple of info dicts, `enclosing_tags` the Python set of ancestor
tags (modelled as an insertion-ordered duplicate-free list). -/
structure TranscriptContext where
  debate_info : List Dict := []
  enclosing_tags : List String := []
  speaker : Dict := []
  fragment_number : Nat := 0
  fragment_type : Option String := none
deriving DecidableEq

/-- Python set insertion `s | {t}`. -/
def setInsert (s : List String) (t : String) : List String :=
  if t ∈ s then s else s ++ [t]

/-- The mutable locals of the `process_xml_transcript` while-loop: the
output list and the traversal-global `speaker`, `fragment_number`,
`fragment_type` variables. -/
structure WalkState where
  processed : List (TranscriptContext × String) := []
  speaker : Dict := []
  fragment_number : Nat := 0
  fragment_type : Option String := none
deriving DecidableEq

/-- Tags that open a new procedural fragment. -/
def isFragmentTag (t : String) : Bool :=
  t ∈ ["speech", "motionnospeech", "petition", "question", "answer"]

/-- Python `to_process.append` for each child of `reversed(element)`: pushing
onto the stack head in reversed order. -/
def pushChildren (ctx : TranscriptContext) (children : List Elem)
    (rest : List (TranscriptContext × Elem)) : List (TranscriptContext × Elem) :=
  children.reverse.foldl (fun s c => (ctx, c) :: s) rest

theorem pushChildren_eq_map_append (ctx : TranscriptContext) (children : List Elem)
    (rest : List (TranscriptContext × Elem)) :
    pushChildren ctx children rest = children.map (fun c => (ctx, c)) ++ rest := by
  induction children generalizing rest with
  | nil => rfl
  | cons c cs ih =>
    rw [pushChildren, List.reverse_cons, List.foldl_append]
    simp only [List.foldl_cons, List.foldl_nil]
    rw [show List.foldl (fun s x => (ctx, x) :: s) rest cs.reverse =
      pushChildren ctx cs rest from rfl]
    rw [ih, List.map_cons, List.cons_append]

/-- Combined size of the elements on the traversal stack. -/
def stackSize (stack : List (TranscriptContext × Elem)) : Nat :=
  (stack.map (fun p => elemSize p.2)).sum

theorem stackSize_cons (c : TranscriptContext) (e : Elem)
    (rest : List (TranscriptContext × Elem)) :
    stackSize ((c, e) :: rest) = elemSize e + stackSize rest := by
  simp [stackSize]

theorem elemSize_children (e : Elem) : elemSize e = 1 + elemsSize e.children := by
  obtain ⟨t, a, x, c, tl⟩ := e
  rw [elemSize, Elem.children]

theorem stackSize_pushChildren (ctx : TranscriptContext) (children : List Elem)
    (rest : List (TranscriptContext × Elem)) :
    stackSize (pushChildren ctx children rest) = elemsSize children + stackSize rest := by
  rw [pushChildren_eq_map_append]
  induction children with
  | nil => simp [elemsSize]
  | cons c cs ih =>
    rw [List.map_cons, List.cons_append, stackSize_cons, ih, elemsSize]
    omega

/-- One iteration of the `process_xml_transcript` while-loop body for the
popped `(context, element)` pair, excluding the stack manipulation: the
fragment-counter update, the debate-info / talker / skip / paragraph branch
dispatch, and the context forking. Returns `some ctx2` when the loop falls
through to pushing `element`'s children under the forked context `ctx2`, and
`none` when the branch ends in `continue` (the skip tags and the emitting
`p`/`para` branch), together with the updated loop state. -/
def stepElem (context : TranscriptContext) (element : Elem) (st : WalkState) :
    Option TranscriptContext × WalkState :=
  let tag := element.tag
  let st1 : WalkState :=
    if isFragmentTag tag then
      { st with fragment_number := st.fragment_number + 1, fragment_type := some tag }
    else st
  let new_debate_info := process_debate_info element
  if new_debate_info ≠ [] then
    let ctx2 : TranscriptContext :=
      { context with debate_info := context.debate_info ++ new_debate_info,
                     speaker := [],
                     enclosing_tags := setInsert context.enclosing_tags tag }
    (some ctx2, st1)
  else if tag = "talker" then
    let sp := childDict element
    let ctx2 : TranscriptContext :=
      { context with speaker := sp,
                     enclosing_tags := setInsert context.enclosing_tags tag }
    (some ctx2, { st1 with speaker := sp })
  else if tag = "debate.text" ∨ tag = "subdebate.text" then
    (none, st1)
  else if tag = "p" ∨ tag = "para" then
    let st2 : WalkState :=
      if tag = "p" then
        match findChild element "a" with
        | some anchor =>
          match attrGet anchor.attrs "href" with
          | some href => { st1 with speaker := [("name.id", some href)] }
          | none => st1
        | none => st1
      else st1
    let ctx1 : TranscriptContext :=
      { context with speaker := st2.speaker,
                     fragment_number := st2.fragment_number,
                     fragment_type := st2.fragment_type }
    (none, { st2 with processed := st2.processed ++ [(ctx1, remove_para_markup element)] })
  else
    let ctx2 : TranscriptContext :=
      { context with enclosing_tags := setInsert context.enclosing_tags tag }
    (some ctx2, st1)

/-- The explicit-stack depth-first traversal of `process_xml_transcript`:
pop, run the loop body, and on fall-through push the children in reversed
order so that document order is preserved. -/
def walk : List (TranscriptContext × Elem) → WalkState → WalkState
  | [], st => st
  | (context, element) :: rest, st =>
    match stepElem context element st with
    | (some ctx2, st1) => walk (pushChildren ctx2 element.children rest) st1
    | (none, st1) => walk rest st1
termination_by stack _ => stackSize stack
decreasing_by
  · rw [stackSize_pushChildren, stackSize_cons, elemSize_children]
    omega
  · rw [stackSize_cons]
    have := elemSize_pos element
    omega

theorem walk_nil (st : WalkState) : walk [] st = st := by
  rw [walk]

theorem walk_cons_step (ctx : TranscriptContext) (e : Elem)
    (rest : List (TranscriptContext × Elem)) (st : WalkState) :
    walk ((ctx, e) :: rest) st =
      match stepElem ctx e st with
      | (some ctx2, st1) => walk (pushChildren ctx2 e.children rest) st1
      | (none, st1) => walk rest st1 := by
  rw [walk]

mutual

/-- Recursive (tree-structural) rendering of the walk: process one element
and, on fall-through, its children left to right. -/
def processTree (context : TranscriptContext) : Elem → WalkState → WalkState
  | e@(.node _ _ _ children _), st =>
    match stepElem context e st with
    | (some ctx2, st1) => processForest ctx2 children st1
    | (none, st1) => st1

/-- Process a forest left to right, threading the loop state. -/
def processForest (ctx : TranscriptContext) : List Elem → WalkState → WalkState
  | [], st => st
  | c :: rest, st => processForest ctx rest (processTree ctx c st)

end

theorem processTree_step (ctx : TranscriptContext) (e : Elem) (st : WalkState) :
    processTree ctx e st =
      match stepElem ctx e st with
      | (some ctx2, st1) => processForest ctx2 e.children st1
      | (none, st1) => st1 := by
  obtain ⟨t, a, x, c, tl⟩ := e
  rfl

theorem processForest_nil (ctx : TranscriptContext) (st : WalkState) :
    processForest ctx [] st = st := rfl

theorem processForest_cons (ctx : TranscriptContext) (c : Elem) (rest : List Elem)
    (st : WalkState) :
    processForest ctx (c :: rest) st = processForest ctx rest (processTree ctx c st) := rfl

theorem walk_bridge (n : Nat) :
    (∀ e, elemSize e ≤ n → ∀ ctx rest st,
      walk ((ctx, e) :: rest) st = walk rest (processTree ctx e st)) ∧
    (∀ l, elemsSize l ≤ n → ∀ ctx rest st,
      walk (l.map (fun c => (ctx, c)) ++ rest) st = walk rest (processForest ctx l st)) := by
  induction n using Nat.strong_induction_on with
  | _ n ih =>
    have treePart : ∀ e, elemSize e ≤ n → ∀ ctx rest st,
        walk ((ctx, e) :: rest) st = walk rest (processTree ctx e st) := by
      intro e he ctx rest st
      rcases hstep : stepElem ctx e st with ⟨stp, st1⟩
      rw [walk_cons_step, processTree_step, hstep]
      cases stp with
      | none => rfl
      | some ctx2 =>
        have hpos := elemSize_pos e
        have hch : elemsSize e.children ≤ n - 1 := by
          have := elemSize_children e
          omega
        have hn : n - 1 < n := by omega
        show walk (pushChildren ctx2 e.children rest) st1 =
          walk rest (processForest ctx2 e.children st1)
        rw [pushChildren_eq_map_append]
        exact (ih (n - 1) hn).2 e.children hch ctx2 rest st1
    refine ⟨treePart, ?_⟩
    intro l
    induction l with
    | nil =>
      intro _ ctx rest st
      rw [processForest_nil]
      rfl
    | cons c ls ihl =>
      intro hle ctx rest st
      have hsize : elemSize c ≤ n ∧ elemsSize ls ≤ n := by
        rw [elemsSize] at hle
        have := elemSize_pos c
        constructor <;> omega
      rw [List.map_cons, List.cons_append,
        treePart c hsize.1 ctx (ls.map (fun x => (ctx, x)) ++ rest) st,
        ihl hsize.2 ctx rest (processTree ctx c st), processForest_cons]

/-- The stack traversal of one root element agrees with the recursive
rendering. -/
theorem walk_single (ctx : TranscriptContext) (e : Elem) (st : WalkState) :
    walk [(ctx, e)] st = processTree ctx e st := by
  rw [(walk_bridge (elemSize e)).1 e (le_refl _) ctx [] st, walk_nil]

/-- Embedding of `process_xml_transcript`: extract the session header dict
(`root.find("session.header")`; a missing header makes the Python function
raise, modelled as `none`), then run the stack traversal from the default
context and loop state. -/
def process_xml_transcript (transcript_key : String) (transcript_pdf_url : Option String)
    (root : Elem) :
    Option (String × Option String × String × Dict × List (TranscriptContext × String)) :=
  match findChild root "session.header" with
  | none => none
  | some session =>
    some (transcript_key, transcript_pdf_url, "xml", childDict session,
      (walk [({}, root)] {}).processed)

/-- The fragment-counter update at the top of the loop body. -/
def fragUpd (e : Elem) (st : WalkState) : WalkState :=
  if isFragmentTag e.tag then
    { st with fragment_number := st.fragment_number + 1, fragment_type := some e.tag }
  else st

/-- The speaker named by a `p` element's embedded link, when present: the
first `a` child carrying an `href` attribute. -/
def anchorSpeaker (e : Elem) : Option Dict :=
  if e.tag = "p" then
    match findChild e "a" with
    | some anchor =>
      match attrGet anchor.attrs "href" with
      | some href => some [("name.id", some href)]
      | none => none
    | none => none
  else none

/-- Loop state after the `p`/`para` branch's speaker handling. -/
def paraState (e : Elem) (st : WalkState) : WalkState :=
  match anchorSpeaker e with
  | some sp => { fragUpd e st with speaker := sp }
  | none => fragUpd e st

/-- The context attached to an emitted paragraph fact. -/
def paraCtx (ctx : TranscriptContext) (e : Elem) (st : WalkState) : TranscriptContext :=
  { ctx with speaker := (paraState e st).speaker,
             fragment_number := (paraState e st).fragment_number,
             fragment_type := (paraState e st).fragment_type }

theorem fragUpd_processed (e : Elem) (st : WalkState) :
    (fragUpd e st).processed = st.processed := by
  rw [fragUpd]
  split <;> rfl

theorem fragUpd_speaker (e : Elem) (st : WalkState) :
    (fragUpd e st).speaker = st.speaker := by
  rw [fragUpd]
  split <;> rfl

theorem paraState_processed (e : Elem) (st : WalkState) :
    (paraState e st).processed = st.processed := by
  rw [paraState]
  split <;> simp [fragUpd_processed]

theorem stepElem_debate (ctx : TranscriptContext) (e : Elem) (st : WalkState)
    (h : process_debate_info e ≠ []) :
    stepElem ctx e st =
      (some { ctx with debate_info := ctx.debate_info ++ process_debate_info e,
                       speaker := [],
                       enclosing_tags := setInsert ctx.enclosing_tags e.tag },
       fragUpd e st) := by
  simp [stepElem, h, fragUpd]

theorem stepElem_talker (ctx : TranscriptContext) (e : Elem) (st : WalkState)
    (h1 : process_debate_info e = []) (h2 : e.tag = "talker") :
    stepElem ctx e st =
      (some { ctx with speaker := childDict e,
                       enclosing_tags := setInsert ctx.enclosing_tags e.tag },
       { fragUpd e st with speaker := childDict e }) := by
  simp [stepElem, h1, h2, fragUpd]

theorem stepElem_skip (ctx : TranscriptContext) (e : Elem) (st : WalkState)
    (h1 : process_debate_info e = [])
    (h3 : e.tag = "debate.text" ∨ e.tag = "subdebate.text") :
    stepElem ctx e st = (none, fragUpd e st) := by
  have h2 : e.tag ≠ "talker" := by
    rcases h3 with h | h <;> rw [h] <;> decide
  simp [stepElem, h1, h2, h3, fragUpd]

theorem stepElem_para (ctx : TranscriptContext) (e : Elem) (st : WalkState)
    (h1 : process_debate_info e = [])
    (h4 : e.tag = "p" ∨ e.tag = "para") :
    stepElem ctx e st =
      (none, { paraState e st with
        processed := st.processed ++ [(paraCtx ctx e st, remove_para_markup e)] }) := by
  have h2 : e.tag ≠ "talker" := by
    rcases h4 with h | h <;> rw [h] <;> decide
  have h3 : ¬(e.tag = "debate.text" ∨ e.tag = "subdebate.text") := by
    rcases h4 with h | h <;> rw [h] <;> decide
  rcases h4 with h | h
  · have hfr : isFragmentTag "p" = false := by decide
    rcases hfc : findChild e "a" with _ | anchor
    · simp [stepElem, h1, h2, h3, h, hfr, hfc, fragUpd, paraState, paraCtx, anchorSpeaker,
        fragUpd_processed]
    · rcases hag : attrGet anchor.attrs "href" with _ | href
      · simp [stepElem, h1, h2, h3, h, hfr, hfc, hag, fragUpd, paraState, paraCtx,
          anchorSpeaker, fragUpd_processed]
      · simp [stepElem, h1, h2, h3, h, hfr, hfc, hag, fragUpd, paraState, paraCtx,
          anchorSpeaker, fragUpd_processed]
  · have hp : e.tag ≠ "p" := by rw [h]; decide
    have hfr : isFragmentTag "para" = false := by decide
    simp [stepElem, h1, h2, h3, h, hp, hfr, fragUpd, paraState, paraCtx, anchorSpeaker,
      fragUpd_processed]

theorem stepElem_passthrough (ctx : TranscriptContext) (e : Elem) (st : WalkState)
    (h1 : process_debate_info e = []) (h2 : e.tag ≠ "talker")
    (h3 : ¬(e.tag = "debate.text" ∨ e.tag = "subdebate.text"))
    (h4 : ¬(e.tag = "p" ∨ e.tag = "para")) :
    stepElem ctx e st =
      (some { ctx with enclosing_tags := setInsert ctx.enclosing_tags e.tag },
       fragUpd e st) := by
  simp [stepElem, h1, h2, h3, h4, fragUpd]

mutual

/-- Specification-side document-order collection of the text-bearing
(`p`/`para`) elements the walk emits: depth first, skipping the
`debate.text`/`subdebate.text` subtrees and not descending into the
paragraph elements themselves. -/
def docParas : Elem → List Elem
  | e@(.node _ _ _ children _) =>
    if process_debate_info e ≠ [] then docParasList children
    else if e.tag = "talker" then docParasList children
    else if e.tag = "debate.text" ∨ e.tag = "subdebate.text" then []
    else if e.tag = "p" ∨ e.tag = "para" then [e]
    else docParasList children

/-- Document-order text-bearing elements of a forest. -/
def docParasList : List Elem → List Elem
  | [] => []
  | c :: rest => docParas c ++ docParasList rest

end

theorem docParas_eq (e : Elem) :
    docParas e =
      if process_debate_info e ≠ [] then docParasList e.children
      else if e.tag = "talker" then docParasList e.children
      else if e.tag = "debate.text" ∨ e.tag = "subdebate.text" then []
      else if e.tag = "p" ∨ e.tag = "para" then [e]
      else docParasList e.children := by
  obtain ⟨t, a, x, c, tl⟩ := e
  rfl

theorem docParasList_nil : docParasList [] = [] := rfl

theorem docParasList_cons (c : Elem) (rest : List Elem) :
    docParasList (c :: rest) = docParas c ++ docParasList rest := rfl

/-- The walk appends exactly one emission per document-order text-bearing
element, in document order, carrying that element's flattened text. -/
theorem processTree_texts (n : Nat) :
    (∀ e, elemSize e ≤ n → ∀ ctx st,
      (processTree ctx e st).processed.map Prod.snd =
        st.processed.map Prod.snd ++ (docParas e).map remove_para_markup) ∧
    (∀ l, elemsSize l ≤ n → ∀ ctx st,
      (processForest ctx l st).processed.map Prod.snd =
        st.processed.map Prod.snd ++ (docParasList l).map remove_para_markup) := by
  induction n using Nat.strong_induction_on with
  | _ n ih =>
    have treePart : ∀ e, elemSize e ≤ n → ∀ ctx st,
        (processTree ctx e st).processed.map Prod.snd =
          st.processed.map Prod.snd ++ (docParas e).map remove_para_markup := by
      intro e he ctx st
      have hpos := elemSize_pos e
      have hch : elemsSize e.children ≤ n - 1 := by
        have := elemSize_children e
        omega
      have hn : n - 1 < n := by omega
      have hforest := (ih (n - 1) hn).2 e.children hch
      by_cases hdi : process_debate_info e ≠ []
      · rw [processTree_step, stepElem_debate ctx e st hdi]
        rw [docParas_eq, if_pos hdi]
        rw [hforest _ (fragUpd e st), fragUpd_processed]
      · push_neg at hdi
        by_cases htalker : e.tag = "talker"
        · rw [processTree_step, stepElem_talker ctx e st hdi htalker]
          rw [docParas_eq, if_neg (by rw [hdi]; exact fun hx => hx rfl), if_pos htalker]
          rw [hforest _ _]
          have : ({ fragUpd e st with speaker := childDict e } : WalkState).processed =
              st.processed := by
            rw [show ({ fragUpd e st with speaker := childDict e } : WalkState).processed =
              (fragUpd e st).processed from rfl, fragUpd_processed]
          rw [this]
        · by_cases hskip : e.tag = "debate.text" ∨ e.tag = "subdebate.text"
          · rw [processTree_step, stepElem_skip ctx e st hdi hskip]
            rw [docParas_eq, if_neg (by rw [hdi]; exact fun hx => hx rfl),
              if_neg htalker, if_pos hskip]
            rw [fragUpd_processed]
            simp [docParasList_nil]
          · by_cases hpara : e.tag = "p" ∨ e.tag = "para"
            · rw [processTree_step, stepElem_para ctx e st hdi hpara]
              rw [docParas_eq, if_neg (by rw [hdi]; exact fun hx => hx rfl),
                if_neg htalker, if_neg hskip, if_pos hpara]
              simp
            · rw [processTree_step, stepElem_passthrough ctx e st hdi htalker hskip hpara]
              rw [docParas_eq, if_neg (by rw [hdi]; exact fun hx => hx rfl),
                if_neg htalker, if_neg hskip, if_neg hpara]
              rw [hforest _ _, fragUpd_processed]
    refine ⟨treePart, ?_⟩
    intro l
    induction l with
    | nil =>
      intro _ ctx st
      rw [processForest_nil, docParasList_nil]
      simp
    | cons c ls ihl =>
      intro hle ctx st
      have hsize : elemSize c ≤ n ∧ elemsSize ls ≤ n := by
        rw [elemsSize] at hle
        have := elemSize_pos c
        constructor <;> omega
      rw [processForest_cons, ihl hsize.2 ctx (processTree ctx c st),
        treePart c hsize.1 ctx st, docParasList_cons]
      simp

/-! ### Corpus tables and `insert_processed_xml_transcript_detail`

The `oz_federal_hansard.db` tables. `para_id` is the SQLite `integer
primary key` auto-assigned from the inserted `null` and carries no
information beyond row identity, so it is not modelled as a column. -/

structure SessionRow where
  session_id : Nat
  url : String
  transcript_pdf_url : Option String
  date : Option String
  chamber : Option String
deriving DecidableEq

structure DebateRow where
  debate_id : Nat
  session_id : Nat
  debate_no : Nat
  title : String
deriving DecidableEq

structure ParagraphRow where
  session_id : Nat
  sequence_number : Nat
  speaker_id : Option String
  debate_id : Nat
  fragment_number : Nat
  fragment_type : Option String
  paragraph_text : String
deriving DecidableEq

structure EnclosingRow where
  session_id : Nat
  sequence_number : Nat
  tag : String
deriving DecidableEq

structure CorpusDB where
  session : List SessionRow := []
  debate : List DebateRow := []
  paragraph : List ParagraphRow := []
  paragraph_enclosing_context : List EnclosingRow := []
deriving DecidableEq

/-- The computed debate title:
`"\n".join(c.get("title", "") or "" for c in context.debate_info)`. -/
def debateTitle (ctx : TranscriptContext) : String :=
  "\n".intercalate (ctx.debate_info.map (fun c => ((dictGet c "title").getD none).getD ""))

/-- The speaker id stored for a paragraph:
`context.speaker.get("name.id", None)`, uppercased when present. -/
def speakerId (ctx : TranscriptContext) : Option String :=
  ((dictGet ctx.speaker "name.id").getD none).map String.toUpper

/-- The per-paragraph loop of `insert_processed_xml_transcript_detail`,
threading `last_debate_title`, `next_debate`, `debate_no`, `debate_id` and
the `enumerate` index `sequence_no`; a new debate row is inserted exactly
when the computed title differs from the previous paragraph's. -/
def insertParagraphs (session_id : Nat) :
    List (TranscriptContext × String) → CorpusDB → Option String → Nat → Nat → Nat →
    Nat → CorpusDB × Nat
  | [], db, _, next_debate, _, _, _ => (db, next_debate)
  | (context, paragraph_text) :: rest, db, last_debate_title, next_debate, debate_no,
      debate_id, sequence_no =>
    let debate_title := debateTitle context
    match (if some debate_title ≠ last_debate_title then
        ({ db with debate :=
            db.debate ++ [⟨next_debate, session_id, debate_no, debate_title⟩] },
         some debate_title, next_debate + 1, debate_no + 1, next_debate)
      else
        (db, last_debate_title, next_debate, debate_no, debate_id) :
        CorpusDB × Option String × Nat × Nat × Nat) with
    | (db1, last1, next1, no1, id1) =>
      let db2 : CorpusDB := { db1 with
        paragraph := db1.paragraph ++ [⟨session_id, sequence_no, speakerId context, id1,
          context.fragment_number, context.fragment_type, paragraph_text⟩],
        paragraph_enclosing_context := db1.paragraph_enclosing_context ++
          context.enclosing_tags.map (fun t => ⟨session_id, sequence_no, t⟩) }
      insertParagraphs session_id rest db2 last1 next1 no1 id1 (sequence_no + 1)

/-- Embedding of `insert_processed_xml_transcript_detail`: insert the session
row (the `session_info["date"]` / `["chamber"]` lookups raise `KeyError`
when absent, modelled as `none`), then run the paragraph loop with
`last_debate_title = None`, `next_debate = debate_id + 1`, `debate_no = 1`
and sequence numbers from `enumerate` starting at 0; returns the updated
database and the `next_debate` counter. -/
def insert_processed_xml_transcript_detail (db : CorpusDB) (session_id debate_id : Nat)
    (url : String) (transcript_pdf_url : Option String) (session_info : Dict)
    (paragraphs : List (TranscriptContext × String)) : Option (CorpusDB × Nat) :=
  match dictGet session_info "date", dictGet session_info "chamber" with
  | some date, some chamber =>
    some (insertParagraphs session_id paragraphs
      { db with session :=
          db.session ++ [⟨session_id, url, transcript_pdf_url, date, chamber⟩] }
      none (debate_id + 1) 1 debate_id 0)
  | _, _ => none

/-- The sequence of titles that open a new debate row: a title is kept
exactly when it differs from the previously seen one. -/
def titleChanges : Option String → List String → List String
  | _, [] => []
  | last, t :: rest =>
    if some t ≠ last then t :: titleChanges (some t) rest else titleChanges last rest

/-- Debate rows generated from the change titles with sequential surrogate
ids and sequential `debate_no`. -/
def mkDebateRows (session_id : Nat) : Nat → Nat → List String → List DebateRow
  | _, _, [] => []
  | next_debate, debate_no, t :: rest =>
    ⟨next_debate, session_id, debate_no, t⟩ ::
      mkDebateRows session_id (next_debate + 1) (debate_no + 1) rest

theorem insertParagraphs_spec (session_id : Nat) :
    ∀ (paragraphs : List (TranscriptContext × String)) (db : CorpusDB)
      (last : Option String) (next no id seq : Nat),
    (insertParagraphs session_id paragraphs db last next no id seq).1.debate =
      db.debate ++ mkDebateRows session_id next no
        (titleChanges last (paragraphs.map (fun p => debateTitle p.1))) ∧
    (insertParagraphs session_id paragraphs db last next no id seq).2 =
      next + (titleChanges last (paragraphs.map (fun p => debateTitle p.1))).length ∧
    (insertParagraphs session_id paragraphs db last next no id seq).1.paragraph.map
        (fun r => r.sequence_number) =
      db.paragraph.map (fun r => r.sequence_number) ++
        List.range' seq paragraphs.length ∧
    (insertParagraphs session_id paragraphs db last next no id seq).1.session =
      db.session := by
  intro paragraphs
  induction paragraphs with
  | nil =>
    intro db last next no id seq
    refine ⟨?_, ?_, ?_, ?_⟩ <;> simp [insertParagraphs, titleChanges, mkDebateRows]
  | cons p rest ih =>
    intro db last next no id seq
    obtain ⟨context, paragraph_text⟩ := p
    by_cases hc : some (debateTitle context) ≠ last
    · rw [insertParagraphs]
      rw [if_pos hc]
      obtain ⟨ih1, ih2, ih3, ih4⟩ := ih _ (some (debateTitle context)) (next + 1) (no + 1)
        next (seq + 1)
      refine ⟨?_, ?_, ?_, ?_⟩
      · rw [ih1]
        simp only [List.map_cons, titleChanges, if_pos hc, mkDebateRows]
        rw [List.append_assoc]
        rfl
      · rw [ih2]
        simp only [List.map_cons, titleChanges, if_pos hc]
        rw [List.length_cons]
        omega
      · rw [ih3]
        simp only [List.map_cons, List.map_append, List.length_cons, List.range'_succ]
        simp
      · rw [ih4]
    · rw [insertParagraphs]
      rw [if_neg hc]
      obtain ⟨ih1, ih2, ih3, ih4⟩ := ih _ last next no id (seq + 1)
      refine ⟨?_, ?_, ?_, ?_⟩
      · rw [ih1]
        simp only [List.map_cons, titleChanges, if_neg hc]
      · rw [ih2]
        simp only [List.map_cons, titleChanges, if_neg hc]
      · rw [ih3]
        simp only [List.map_cons, List.map_append, List.length_cons, List.range'_succ]
        simp
      · rw [ih4]

theorem docParas_tags (n : Nat) :
    (∀ e, elemSize e ≤ n → ∀ q ∈ docParas e, q.tag = "p" ∨ q.tag = "para") ∧
    (∀ l, elemsSize l ≤ n → ∀ q ∈ docParasList l, q.tag = "p" ∨ q.tag = "para") := by
  induction n using Nat.strong_induction_on with
  | _ n ih =>
    have treePart : ∀ e, elemSize e ≤ n → ∀ q ∈ docParas e,
        q.tag = "p" ∨ q.tag = "para" := by
      intro e he q hq
      have hpos := elemSize_pos e
      have hch : elemsSize e.children ≤ n - 1 := by
        have := elemSize_children e
        omega
      have hn : n - 1 < n := by omega
      have hforest := (ih (n - 1) hn).2 e.children hch
      by_cases hdi : process_debate_info e ≠ []
      · rw [docParas_eq, if_pos hdi] at hq
        exact hforest q hq
      · push_neg at hdi
        rw [docParas_eq, if_neg (by rw [hdi]; exact fun hx => hx rfl)] at hq
        by_cases htalker : e.tag = "talker"
        · rw [if_pos htalker] at hq
          exact hforest q hq
        · rw [if_neg htalker] at hq
          by_cases hskip : e.tag = "debate.text" ∨ e.tag = "subdebate.text"
          · rw [if_pos hskip] at hq
            simp at hq
          · rw [if_neg hskip] at hq
            by_cases hpara : e.tag = "p" ∨ e.tag = "para"
            · rw [if_pos hpara] at hq
              simp at hq
              rw [hq]
              exact hpara
            · rw [if_neg hpara] at hq
              exact hforest q hq
    refine ⟨treePart, ?_⟩
    intro l
    induction l with
    | nil =>
      intro _ q hq
      rw [docParasList_nil] at hq
      simp at hq
    | cons c ls ihl =>
      intro hle q hq
      have hsize : elemSize c ≤ n ∧ elemsSize ls ≤ n := by
        rw [elemsSize] at hle
        have := elemSize_pos c
        constructor <;> omega
      rw [docParasList_cons] at hq
      rcases List.mem_append.mp hq with h | h
      · exact treePart c hsize.1 q h
      · exact ihl hsize.2 q h

/-- C5: for every document that parses (a session header is present), the
normalizer emits exactly one paragraph fact per document-order text-bearing
(`p`/`para`) element outside the skipped `debate.text`/`subdebate.text`
subtrees, carrying that element's flattened text in exact document order
(the hypothesis `hleaf` records that no emitted text-bearing element nests
another, so each is a leaf text-bearing element); and when the facts are
committed, the stored `sequence_number` values are `0, 1, 2, ...` — the
enumeration indices — strictly increasing and unique within the session. -/
theorem process_xml_paragraph_order (key : String) (pdf : Option String)
    (root sess : Elem) (hsess : findChild root "session.header" = some sess)
    (hleaf : ∀ q ∈ docParas root, (docParasList q.children).length = 0) :
    process_xml_transcript key pdf root =
      some (key, pdf, "xml", childDict sess, (walk [({}, root)] {}).processed) ∧
    (walk [({}, root)] {}).processed.map Prod.snd =
      (docParas root).map remove_para_markup ∧
    (walk [({}, root)] {}).processed.length = (docParas root).length ∧
    (∀ q ∈ docParas root, q.tag = "p" ∨ q.tag = "para") ∧
    (∀ (db : CorpusDB) (sid did : Nat) (url : String) (pdf2 : Option String)
        (sinfo : Dict) (date chamber : Option String),
      dictGet sinfo "date" = some date → dictGet sinfo "chamber" = some chamber →
      (insert_processed_xml_transcript_detail db sid did url pdf2 sinfo
          ((walk [({}, root)] {}).processed)).map
          (fun out => out.1.paragraph.map (fun r => r.sequence_number)) =
        some (db.paragraph.map (fun r => r.sequence_number) ++
          List.range' 0 (docParas root).length) ∧
      List.Pairwise (· < ·) (List.range' 0 (docParas root).length)) := by
  have htexts : (walk [({}, root)] {}).processed.map Prod.snd =
      (docParas root).map remove_para_markup := by
    rw [walk_single]
    have h := (processTree_texts (elemSize root)).1 root (le_refl _) {} {}
    rw [h]
    rfl
  have hlen : (walk [({}, root)] {}).processed.length = (docParas root).length := by
    have := congrArg List.length htexts
    simpa using this
  refine ⟨?_, htexts, hlen, ?_, ?_⟩
  · rw [process_xml_transcript, hsess]
  · exact (docParas_tags (elemSize root)).1 root (le_refl _)
  · intro db sid did url pdf2 sinfo date chamber hd hc
    constructor
    · simp only [insert_processed_xml_transcript_detail, hd, hc, Option.map_some,
        Option.map_some']
      have h := (insertParagraphs_spec sid ((walk [({}, root)] {}).processed)
        { db with session := db.session ++ [⟨sid, url, pdf2, date, chamber⟩] }
        none (did + 1) 1 did 0).2.2.1
      rw [show ({ db with session := db.session ++ [⟨sid, url, pdf2, date, chamber⟩] } :
        CorpusDB).paragraph = db.paragraph from rfl] at h
      rw [h, hlen]
    · have : ∀ s m : Nat, List.Pairwise (· < ·) (List.range' s m) := by
        intro s m
        induction m generalizing s with
        | zero => simp
        | succ m ihm =>
          rw [List.range'_succ]
          refine List.Pairwise.cons ?_ (ihm (s + 1))
          intro b hb
          have := List.mem_range'_1.mp hb
          omega
      exact this 0 _

/-- Sample session header element shared by the concrete fixtures. -/
def sampleSession : Elem :=
  .node "session.header" [] none
    [.node "date" [] (some "2024-03-05") [] none,
     .node "chamber" [] (some "REPS") [] none] none

/-- A plain legacy-style paragraph element with the given text. -/
def samplePara (s : String) : Elem := .node "para" [] (some s) [] none

/-- A three-paragraph fixture document: one debate with one speech holding
three `para` leaves. -/
def sampleRoot : Elem :=
  .node "hansard" [] none
    [sampleSession,
     .node "debate" [] none
       [.node "debateinfo" [] none [.node "title" [] (some "Bills") [] none] none,
        .node "speech" [] none
          [samplePara "One here.", samplePara "Two here.", samplePara "Three here."]
          none] none] none

/-- Witness for C5 on the three-paragraph fixture: the emitted facts carry
the three texts in document order and commit with sequence numbers 0, 1, 2. -/
theorem process_xml_paragraph_order_witness :
    (walk [({}, sampleRoot)] {}).processed.map Prod.snd =
      (docParas sampleRoot).map remove_para_markup ∧
    (walk [({}, sampleRoot)] {}).processed.length = (docParas sampleRoot).length ∧
    ((insert_processed_xml_transcript_detail {} 1 0 "u" none
        [("date", some "2024-03-05"), ("chamber", some "REPS")]
        ((walk [({}, sampleRoot)] {}).processed)).map
        (fun out => out.1.paragraph.map (fun r => r.sequence_number)) =
      some (([] : List ParagraphRow).map (fun r => r.sequence_number) ++
        List.range' 0 (docParas sampleRoot).length) ∧
      List.Pairwise (· < ·) (List.range' 0 (docParas sampleRoot).length)) ∧
    (docParas sampleRoot).length = 3 := by
  have h := process_xml_paragraph_order "u" none sampleRoot sampleSession rfl (by decide)
  exact ⟨h.2.1, h.2.2.1,
    h.2.2.2.2 {} 1 0 "u" none [("date", some "2024-03-05"), ("chamber", some "REPS")]
      (some "2024-03-05") (some "REPS") rfl rfl, by decide⟩

theorem mkDebateRows_debate_no (session_id : Nat) :
    ∀ (ts : List String) (next no : Nat),
    (mkDebateRows session_id next no ts).map (fun r => r.debate_no) =
      List.range' no ts.length := by
  intro ts
  induction ts with
  | nil => intro next no; rfl
  | cons t rest ih =>
    intro next no
    rw [mkDebateRows, List.map_cons, ih, List.length_cons, List.range'_succ]

/-- C6: committing a normalized transcript creates a new debate row exactly
when the computed debate title (the joined title-like values of the
paragraph's `debate_info` snapshot) differs from the immediately preceding
paragraph's computed title — `titleChanges` keeps exactly the titles that
differ from their predecessor (the first always differs from the `None`
sentinel) — with surrogate ids continuing from `debate_id + 1` and
`debate_no` sequential from 1; consecutive titles
`["Bills", "Bills", "Questions"]` yield exactly two debate rows with
`debate_no` 1 and 2, the second attached from the third paragraph on. -/
theorem insert_detail_debate_boundaries
    (db : CorpusDB) (session_id debate_id : Nat) (url : String) (pdf : Option String)
    (sinfo : Dict) (date chamber : Option String)
    (paragraphs : List (TranscriptContext × String))
    (hd : dictGet sinfo "date" = some date)
    (hc : dictGet sinfo "chamber" = some chamber) :
    ((insert_processed_xml_transcript_detail db session_id debate_id url pdf sinfo
        paragraphs).map (fun out => out.1.debate)) =
      some (db.debate ++ mkDebateRows session_id (debate_id + 1) 1
        (titleChanges none (paragraphs.map (fun p => debateTitle p.1)))) ∧
    (mkDebateRows session_id (debate_id + 1) 1
        (titleChanges none (paragraphs.map (fun p => debateTitle p.1)))).map
        (fun r => r.debate_no) =
      List.range' 1 (titleChanges none (paragraphs.map (fun p => debateTitle p.1))).length ∧
    (insertParagraphs 1
        [({ debate_info := [[("title", some "Bills")]] }, "a"),
         ({ debate_info := [[("title", some "Bills")]] }, "b"),
         ({ debate_info := [[("title", some "Questions")]] }, "c")]
        {} none 1 1 0 0).1.debate =
      [⟨1, 1, 1, "Bills"⟩, ⟨2, 1, 2, "Questions"⟩] ∧
    (insertParagraphs 1
        [({ debate_info := [[("title", some "Bills")]] }, "a"),
         ({ debate_info := [[("title", some "Bills")]] }, "b"),
         ({ debate_info := [[("title", some "Questions")]] }, "c")]
        {} none 1 1 0 0).1.paragraph.map (fun r => r.debate_id) = [1, 1, 2] := by
  refine ⟨?_, mkDebateRows_debate_no session_id _ _ _, ?_, ?_⟩
  · simp only [insert_processed_xml_transcript_detail, hd, hc, Option.map_some,
      Option.map_some']
    have h := (insertParagraphs_spec session_id paragraphs
      { db with session := db.session ++ [⟨session_id, url, pdf, date, chamber⟩] }
      none (debate_id + 1) 1 debate_id 0).1
    rw [show ({ db with session := db.session ++ [⟨session_id, url, pdf, date, chamber⟩] } :
      CorpusDB).debate = db.debate from rfl] at h
    rw [h]
  · decide
  · decide

/-- Witness for C6 at the concrete fixture from the spec: three consecutive
paragraphs titled Bills, Bills, Questions. -/
theorem insert_detail_debate_boundaries_witness :
    ((insert_processed_xml_transcript_detail {} 1 0 "u" none
        [("date", some "2024-03-05"), ("chamber", some "REPS")]
        [({ debate_info := [[("title", some "Bills")]] }, "a"),
         ({ debate_info := [[("title", some "Bills")]] }, "b"),
         ({ debate_info := [[("title", some "Questions")]] }, "c")]).map
        (fun out => out.1.debate)) =
      some (([] : List DebateRow) ++ mkDebateRows 1 (0 + 1) 1
        (titleChanges none
          ([({ debate_info := [[("title", some "Bills")]] }, "a"),
            ({ debate_info := [[("title", some "Bills")]] }, "b"),
            ({ debate_info := [[("title", some "Questions")]] }, "c")].map
            (fun p => debateTitle p.1)))) ∧
    (insertParagraphs 1
        [({ debate_info := [[("title", some "Bills")]] }, "a"),
         ({ debate_info := [[("title", some "Bills")]] }, "b"),
         ({ debate_info := [[("title", some "Questions")]] }, "c")]
        {} none 1 1 0 0).1.debate =
      [⟨1, 1, 1, "Bills"⟩, ⟨2, 1, 2, "Questions"⟩] ∧
    (insertParagraphs 1
        [({ debate_info := [[("title", some "Bills")]] }, "a"),
         ({ debate_info := [[("title", some "Bills")]] }, "b"),
         ({ debate_info := [[("title", some "Questions")]] }, "c")]
        {} none 1 1 0 0).1.paragraph.map (fun r => r.debate_id) = [1, 1, 2] := by
  have h := insert_detail_debate_boundaries {} 1 0 "u" none
    [("date", some "2024-03-05"), ("chamber", some "REPS")]
    (some "2024-03-05") (some "REPS")
    [({ debate_info := [[("title", some "Bills")]] }, "a"),
     ({ debate_info := [[("title", some "Bills")]] }, "b"),
     ({ debate_info := [[("title", some "Questions")]] }, "c")] rfl rfl
  exact ⟨h.1, h.2.2.1, h.2.2.2⟩

mutual

/-- Whether the subtree contains any node that reassigns the loop-global
`speaker` variable: a `talker` element, or an emitting `p` element whose
embedded link names a speaker (skipped subtrees cannot). -/
def hasSpeakerEvent : Elem → Bool
  | e@(.node _ _ _ children _) =>
    if process_debate_info e ≠ [] then hasSpeakerEventList children
    else if e.tag = "talker" then true
    else if e.tag = "debate.text" ∨ e.tag = "subdebate.text" then false
    else if e.tag = "p" ∨ e.tag = "para" then (anchorSpeaker e).isSome
    else hasSpeakerEventList children

def hasSpeakerEventList : List Elem → Bool
  | [] => false
  | c :: rest => hasSpeakerEvent c || hasSpeakerEventList rest

end

theorem hasSpeakerEvent_eq (e : Elem) :
    hasSpeakerEvent e =
      if process_debate_info e ≠ [] then hasSpeakerEventList e.children
      else if e.tag = "talker" then true
      else if e.tag = "debate.text" ∨ e.tag = "subdebate.text" then false
      else if e.tag = "p" ∨ e.tag = "para" then (anchorSpeaker e).isSome
      else hasSpeakerEventList e.children := by
  obtain ⟨t, a, x, c, tl⟩ := e
  rfl

theorem fragUpd_fields (e : Elem) (st : WalkState) :
    (fragUpd e st).speaker = st.speaker ∧ (fragUpd e st).processed = st.processed := by
  rw [fragUpd]
  split <;> exact ⟨rfl, rfl⟩

/-- Speaker persistence: a subtree with no speaker event neither changes the
loop-global speaker nor emits any paragraph attributed to a different
speaker than the one in force when the subtree was entered. -/
theorem speaker_persistence (n : Nat) :
    (∀ e, elemSize e ≤ n → hasSpeakerEvent e = false →
      ∀ ctx st, (processTree ctx e st).speaker = st.speaker ∧
        ∀ q ∈ (processTree ctx e st).processed,
          q ∈ st.processed ∨ q.1.speaker = st.speaker) ∧
    (∀ l, elemsSize l ≤ n → hasSpeakerEventList l = false →
      ∀ ctx st, (processForest ctx l st).speaker = st.speaker ∧
        ∀ q ∈ (processForest ctx l st).processed,
          q ∈ st.processed ∨ q.1.speaker = st.speaker) := by
  induction n using Nat.strong_induction_on with
  | _ n ih =>
    have treePart : ∀ e, elemSize e ≤ n → hasSpeakerEvent e = false →
        ∀ ctx st, (processTree ctx e st).speaker = st.speaker ∧
          ∀ q ∈ (processTree ctx e st).processed,
            q ∈ st.processed ∨ q.1.speaker = st.speaker := by
      intro e he hev ctx st
      have hpos := elemSize_pos e
      have hch : elemsSize e.children ≤ n - 1 := by
        have := elemSize_children e
        omega
      have hn : n - 1 < n := by omega
      by_cases hdi : process_debate_info e ≠ []
      · rw [hasSpeakerEvent_eq, if_pos hdi] at hev
        rw [processTree_step, stepElem_debate ctx e st hdi]
        have hforest := (ih (n - 1) hn).2 e.children hch hev
          { ctx with debate_info := ctx.debate_info ++ process_debate_info e,
                     speaker := [],
                     enclosing_tags := setInsert ctx.enclosing_tags e.tag }
          (fragUpd e st)
        obtain ⟨hf1, hf2⟩ := fragUpd_fields e st
        refine ⟨by rw [hforest.1, hf1], ?_⟩
        intro q hq
        rcases hforest.2 q hq with h | h
        · rw [hf2] at h
          exact Or.inl h
        · rw [hf1] at h
          exact Or.inr h
      · push_neg at hdi
        have hdi2 : ¬process_debate_info e ≠ [] := by rw [hdi]; exact fun hx => hx rfl
        by_cases htalker : e.tag = "talker"
        · rw [hasSpeakerEvent_eq, if_neg hdi2, if_pos htalker] at hev
          exact absurd hev (by simp)
        · by_cases hskip : e.tag = "debate.text" ∨ e.tag = "subdebate.text"
          · rw [processTree_step, stepElem_skip ctx e st hdi hskip]
            obtain ⟨hf1, hf2⟩ := fragUpd_fields e st
            refine ⟨hf1, ?_⟩
            intro q hq
            rw [hf2] at hq
            exact Or.inl hq
          · by_cases hpara : e.tag = "p" ∨ e.tag = "para"
            · rw [hasSpeakerEvent_eq, if_neg hdi2, if_neg htalker, if_neg hskip,
                if_pos hpara] at hev
              have hanchor : anchorSpeaker e = none := by
                rcases hopt : anchorSpeaker e with _ | sp
                · rfl
                · rw [hopt] at hev
                  simp at hev
              rw [processTree_step, stepElem_para ctx e st hdi hpara]
              have hps : paraState e st = fragUpd e st := by
                rw [paraState, hanchor]
              obtain ⟨hf1, hf2⟩ := fragUpd_fields e st
              constructor
              · rw [show ({ paraState e st with processed := st.processed ++
                    [(paraCtx ctx e st, remove_para_markup e)] } : WalkState).speaker =
                  (paraState e st).speaker from rfl, hps, hf1]
              · intro q hq
                rw [show ({ paraState e st with processed := st.processed ++
                    [(paraCtx ctx e st, remove_para_markup e)] } : WalkState).processed =
                  st.processed ++ [(paraCtx ctx e st, remove_para_markup e)] from rfl] at hq
                rcases List.mem_append.mp hq with h | h
                · exact Or.inl h
                · right
                  have hqe : q = (paraCtx ctx e st, remove_para_markup e) := by
                    simpa using h
                  rw [hqe]
                  rw [show (paraCtx ctx e st, remove_para_markup e).1.speaker =
                    (paraState e st).speaker from rfl, hps, hf1]
            · rw [hasSpeakerEvent_eq, if_neg hdi2, if_neg htalker, if_neg hskip,
                if_neg hpara] at hev
              rw [processTree_step, stepElem_passthrough ctx e st hdi htalker hskip hpara]
              have hforest := (ih (n - 1) hn).2 e.children hch hev
                { ctx with enclosing_tags := setInsert ctx.enclosing_tags e.tag }
                (fragUpd e st)
              obtain ⟨hf1, hf2⟩ := fragUpd_fields e st
              refine ⟨by rw [hforest.1, hf1], ?_⟩
              intro q hq
              rcases hforest.2 q hq with h | h
              · rw [hf2] at h
                exact Or.inl h
              · rw [hf1] at h
                exact Or.inr h
    refine ⟨treePart, ?_⟩
    intro l
    induction l with
    | nil =>
      intro _ _ ctx st
      rw [processForest_nil]
      exact ⟨rfl, fun q hq => Or.inl hq⟩
    | cons c ls ihl =>
      intro hle hev ctx st
      have hsize : elemSize c ≤ n ∧ elemsSize ls ≤ n := by
        rw [elemsSize] at hle
        have := elemSize_pos c
        constructor <;> omega
      rw [show hasSpeakerEventList (c :: ls) = (hasSpeakerEvent c || hasSpeakerEventList ls)
        from rfl, Bool.or_eq_false_iff] at hev
      have htree := treePart c hsize.1 hev.1 ctx st
      have hrest := ihl hsize.2 hev.2 ctx (processTree ctx c st)
      rw [processForest_cons]
      refine ⟨by rw [hrest.1, htree.1], ?_⟩
      intro q hq
      rcases hrest.2 q hq with h | h
      · rcases htree.2 q h with h2 | h2
        · exact Or.inl h2
        · exact Or.inr h2
      · rw [htree.1] at h
        exact Or.inr h

theorem process_debate_info_of_para_tag (e : Elem)
    (h : e.tag = "p" ∨ e.tag = "para") : process_debate_info e = [] := by
  rcases h with h | h <;>
    (simp only [process_debate_info, h]
     rw [if_neg (by decide), if_neg (by decide)])

/-- A modern-dialect paragraph whose embedded link names speaker 10000. -/
def anchorPara : Elem :=
  .node "p" [] (some "Hello") [.node "a" [("href", "10000")] none [] none] none

/-- A plain paragraph with no speaker attribution of its own. -/
def plainPara : Elem := .node "para" [] (some "World") [] none

/-- Two sibling subtrees: the first contains the anchored paragraph, the
second a plain paragraph. Under the claimed sibling isolation the second
paragraph would keep the inherited (empty) speaker. -/
def leakRoot : Elem :=
  .node "hansard" [] none
    [sampleSession,
     .node "x1" [] none [anchorPara] none,
     .node "x2" [] none [plainPara] none] none

/-- C7 as stated is false: the speaker attached to emitted paragraphs is the
loop-global `speaker` variable, not the forked context value, so a speaker
named by an embedded link inside one sibling subtree IS observed by the next
sibling subtree's paragraphs. On `leakRoot` the second paragraph sits in a
different sibling subtree with inherited speaker `{}`, yet both emitted
facts carry the first subtree's link speaker 10000. -/
theorem context_fork_speaker_leak :
    (walk [({}, leakRoot)] {}).processed.map (fun q => q.1.speaker) =
      [[("name.id", some "10000")], [("name.id", some "10000")]] ∧
    ({} : TranscriptContext).speaker = [] := by
  constructor
  · rw [walk_single]
    rfl
  · rfl

/-- C7 amended: the context is forked per node as a pure value — the forked
child context computed by the loop body depends only on the parent context
and the element, never on the traversal state, and siblings all receive the
same forked context with only the loop state threaded between them — so
`debate_info` and `enclosing_tags` are sibling-isolated; but the effective
speaker is the loop-global variable threaded in document order: a subtree
without speaker events neither changes it nor emits any paragraph with a
different speaker (so an embedded-link override persists across all later
leaves of the document until changed again), and an anchored `p` leaf sets
it for its own emission and for everything after. -/
theorem context_fork_semantics :
    (∀ (ctx : TranscriptContext) (e : Elem) (st st' : WalkState),
      (stepElem ctx e st).1 = (stepElem ctx e st').1) ∧
    (∀ (ctx : TranscriptContext) (l1 l2 : List Elem) (st : WalkState),
      processForest ctx (l1 ++ l2) st = processForest ctx l2 (processForest ctx l1 st)) ∧
    (∀ (e : Elem), hasSpeakerEvent e = false →
      ∀ (ctx : TranscriptContext) (st : WalkState),
      (processTree ctx e st).speaker = st.speaker ∧
      ∀ q ∈ (processTree ctx e st).processed,
        q ∈ st.processed ∨ q.1.speaker = st.speaker) ∧
    (∀ (ctx : TranscriptContext) (e anchor : Elem) (href : String) (st : WalkState),
      e.tag = "p" → findChild e "a" = some anchor →
      attrGet anchor.attrs "href" = some href →
      processTree ctx e st =
        { paraState e st with
          processed := st.processed ++ [(paraCtx ctx e st, remove_para_markup e)] } ∧
      (paraCtx ctx e st).speaker = [("name.id", some href)]) := by
  refine ⟨?_, ?_, ?_, ?_⟩
  · intro ctx e st st'
    by_cases hdi : process_debate_info e ≠ []
    · rw [stepElem_debate ctx e st hdi, stepElem_debate ctx e st' hdi]
    · push_neg at hdi
      by_cases htalker : e.tag = "talker"
      · rw [stepElem_talker ctx e st hdi htalker, stepElem_talker ctx e st' hdi htalker]
      · by_cases hskip : e.tag = "debate.text" ∨ e.tag = "subdebate.text"
        · rw [stepElem_skip ctx e st hdi hskip, stepElem_skip ctx e st' hdi hskip]
        · by_cases hpara : e.tag = "p" ∨ e.tag = "para"
          · rw [stepElem_para ctx e st hdi hpara, stepElem_para ctx e st' hdi hpara]
          · rw [stepElem_passthrough ctx e st hdi htalker hskip hpara,
              stepElem_passthrough ctx e st' hdi htalker hskip hpara]
  · intro ctx l1 l2 st
    induction l1 generalizing st with
    | nil => rfl
    | cons c cs ih =>
      rw [List.cons_append, processForest_cons, processForest_cons, ih]
  · intro e hev ctx st
    exact (speaker_persistence (elemSize e)).1 e (le_refl _) hev ctx st
  · intro ctx e anchor href st hp ha hh
    have hdi : process_debate_info e = [] := process_debate_info_of_para_tag e (Or.inl hp)
    have hanchor : anchorSpeaker e = some [("name.id", some href)] := by
      simp [anchorSpeaker, hp, ha, hh]
    constructor
    · rw [processTree_step, stepElem_para ctx e st hdi (Or.inl hp)]
    · rw [show (paraCtx ctx e st).speaker = (paraState e st).speaker from rfl,
        paraState, hanchor]

/-- Witness for C7's amended theorem at concrete inputs: the loop body's
forked context is identical for two different traversal states, sibling
forests chain through the state only, a speaker carried in the state
survives an event-free `para` subtree, and the anchored paragraph override
takes effect. -/
theorem context_fork_semantics_witness :
    (stepElem {} plainPara {}).1 =
      (stepElem {} plainPara { speaker := [("name.id", some "X")] }).1 ∧
    processForest {} ([plainPara] ++ [plainPara]) {} =
      processForest {} [plainPara] (processForest {} [plainPara] {}) ∧
    (processTree {} plainPara { speaker := [("name.id", some "77")] }).speaker =
      ({ speaker := [("name.id", some "77")] } : WalkState).speaker ∧
    (paraCtx {} anchorPara {}).speaker = [("name.id", some "10000")] := by
  have h := context_fork_semantics
  refine ⟨h.1 {} plainPara {} { speaker := [("name.id", some "X")] },
    h.2.1 {} [plainPara] [plainPara] {},
    (h.2.2.1 plainPara (by decide) {} { speaker := [("name.id", some "77")] }).1,
    (h.2.2.2 {} anchorPara (.node "a" [("href", "10000")] none [] none) "10000" {}
      rfl rfl rfl).2⟩

/-! ### Normalization orchestrator (`__main__` of `prepare_transcripts.py`)

The main loop submits `process_xml_transcript` / `process_sgml_transcript`
to a process pool and consumes finished futures with `cf.wait(...,
FIRST_COMPLETED)` / `cf.as_completed` — i.e. in COMPLETION order, which is
an input of the model below (the list order of the task results). For
each consumed result it increments `session_id`; for `xml` results it
commits via `insert_processed_xml_transcript_detail`. `task.result()`
re-raises any exception the worker raised (there is no try/except around
it), and a `KeyError` from the session-info lookups likewise propagates. -/

/-- The tuple a worker returns. For the `sgml` dialect the Python code
returns `None` for `session_info` and `paragraphs`; the orchestrator never
reads them for non-xml results, so they are carried here as empty
placeholders. -/
structure TaskOk where
  url : String
  transcript_pdf_url : Option String
  transcript_type : String
  session_info : Dict
  paragraphs : List (TranscriptContext × String)
deriving DecidableEq

/-- Uncaught exceptions that abort the main loop. -/
inductive RunError where
  | parseError
  | keyError
deriving DecidableEq

/-- Embedding of `process_sgml_transcript`: chop the doctype, strip the
known-unclosed tags (the `remove_tags` regex pass, abstracted as the
parameter `removeTags`), substitute entities, and parse
(`ET.fromstring`, abstracted as the parameter `parseXml`); a parse failure
raises `ParseError` out of the worker, a success returns the
`(key, pdf, "sgml", None, None)` placeholder tuple. -/
def process_sgml_transcript (parseXml : List Char → Option Elem)
    (removeTags : List Char → List Char) (transcript_key : String)
    (transcript_pdf_url : Option String) (sgml_str : List Char) :
    Except Unit TaskOk :=
  let remove_doctype := chop_sgml_doctype sgml_str
  let removed_unclosed_tags := removeTags remove_doctype
  let transformed := substEntities removed_unclosed_tags
  match parseXml transformed with
  | none => .error ()
  | some _ => .ok ⟨transcript_key, transcript_pdf_url, "sgml", [], []⟩

/-- The result-consumption loop of `__main__`, over task results in
completion order, threading `session_id` and `next_debate`; `task.result()`
re-raises a worker's ParseError, and a missing session-info key raises
KeyError, either of which aborts the whole run uncommitted. -/
def orchLoop : List (Except Unit TaskOk) → Nat → Nat → CorpusDB →
    Except RunError (Nat × Nat × CorpusDB)
  | [], session_id, next_debate, db => .ok (session_id, next_debate, db)
  | Except.error _ :: _, _, _, _ => .error .parseError
  | Except.ok r :: rest, session_id, next_debate, db =>
    if r.transcript_type = "xml" then
      match insert_processed_xml_transcript_detail db session_id next_debate r.url
          r.transcript_pdf_url r.session_info r.paragraphs with
      | none => .error .keyError
      | some (db1, next1) => orchLoop rest (session_id + 1) next1 db1
    else orchLoop rest (session_id + 1) next_debate db

/-- A full normalization run: counters start at 1 over an empty corpus. -/
def run_prepare (tasks : List (Except Unit TaskOk)) : Except RunError CorpusDB :=
  (orchLoop tasks 1 1 {}).map (fun x => x.2.2)

theorem orchLoop_append (l1 l2 : List (Except Unit TaskOk)) :
    ∀ (s n : Nat) (db : CorpusDB),
    orchLoop (l1 ++ l2) s n db =
      (orchLoop l1 s n db).bind (fun x => orchLoop l2 x.1 x.2.1 x.2.2) := by
  induction l1 with
  | nil => intro s n db; rfl
  | cons t rest ih =>
    intro s n db
    cases t with
    | error e => rfl
    | ok r =>
      rw [List.cons_append, orchLoop, orchLoop]
      by_cases hx : r.transcript_type = "xml"
      · rw [if_pos hx, if_pos hx]
        rcases hins : insert_processed_xml_transcript_detail db s n r.url
            r.transcript_pdf_url r.session_info r.paragraphs with _ | p
        · rfl
        · obtain ⟨db1, next1⟩ := p
          exact ih (s + 1) next1 db1
      · rw [if_neg hx, if_neg hx]
        exact ih (s + 1) n db

/-- A successfully normalized xml transcript result for document `uA`. -/
def taskA : Except Unit TaskOk :=
  .ok ⟨"uA", none, "xml", [("date", some "2024-01-01"), ("chamber", some "REPS")], []⟩

/-- A successfully normalized xml transcript result for document `uC`. -/
def taskC : Except Unit TaskOk :=
  .ok ⟨"uC", none, "xml", [("date", some "2024-02-02"), ("chamber", some "REPS")], []⟩

/-- C1 is a real defect: the orchestrator consumes futures in completion
order and assigns `session_id` from a counter incremented per consumed
result, so the committed surrogate identifiers depend on worker completion
order. For the same two-document input set, the two possible completion
orders commit different `session` tables: `uA` receives `session_id` 1 in
one run and 2 in the other. -/
theorem session_ids_follow_completion_order :
    run_prepare [taskA, taskC] ≠ run_prepare [taskC, taskA] ∧
    (run_prepare [taskA, taskC]).map
        (fun db => db.session.map (fun r => (r.session_id, r.url))) =
      .ok [(1, "uA"), (2, "uC")] ∧
    (run_prepare [taskC, taskA]).map
        (fun db => db.session.map (fun r => (r.session_id, r.url))) =
      .ok [(1, "uC"), (2, "uA")] := by
  refine ⟨?_, rfl, rfl⟩
  intro heq
  have h2 := congrArg
    (Except.map (fun db => db.session.map (fun r => (r.session_id, r.url)))) heq
  injection h2 with h3
  exact absurd h3 (by decide)

/-- C3 as stated is false: a legacy document whose preprocessed markup does
not parse makes `process_sgml_transcript` raise, `task.result()` re-raises
in the orchestrator, and the whole run aborts — the remaining documents are
not committed. With the failing document between two good ones the run
returns the ParseError, while the same batch without it commits both good
documents. -/
theorem parse_error_crashes_run :
    run_prepare [taskA,
      process_sgml_transcript (fun _ => none) id "uB" none "<junk>".data, taskC] =
      .error .parseError ∧
    (run_prepare [taskA, taskC]).map
        (fun db => db.session.map (fun r => (r.session_id, r.url))) =
      .ok [(1, "uA"), (2, "uC")] := by
  exact ⟨rfl, rfl⟩

/-- C3 amended: a ParseError isolates to nothing — it propagates. Whenever a
prefix of the completion order processes successfully and the next result is
a worker that raised (for a legacy document whose preprocessed markup fails
to parse), the entire run returns the ParseError regardless of the remaining
documents, which are never committed. -/
theorem parse_error_propagates
    (l1 l2 : List (Except Unit TaskOk)) (x : Nat × Nat × CorpusDB)
    (hok : orchLoop l1 1 1 {} = .ok x)
    (parseXml : List Char → Option Elem) (removeTags : List Char → List Char)
    (key : String) (pdf : Option String) (sgml_str : List Char)
    (hbad : parseXml (substEntities (removeTags (chop_sgml_doctype sgml_str))) = none) :
    process_sgml_transcript parseXml removeTags key pdf sgml_str = .error () ∧
    run_prepare (l1 ++
      process_sgml_transcript parseXml removeTags key pdf sgml_str :: l2) =
      .error .parseError := by
  have hsg : process_sgml_transcript parseXml removeTags key pdf sgml_str = .error () := by
    rw [process_sgml_transcript]
    simp only [hbad]
  refine ⟨hsg, ?_⟩
  rw [run_prepare, orchLoop_append, hok, hsg]
  rfl

/-- Witness for C3's amended theorem: one good xml document followed by a
failing legacy document and another good document. -/
theorem parse_error_propagates_witness :
    process_sgml_transcript (fun _ => none) id "uB" none "<junk>".data = .error () ∧
    run_prepare ([taskA] ++
      process_sgml_transcript (fun _ => none) id "uB" none "<junk>".data :: [taskC]) =
      .error .parseError := by
  exact parse_error_propagates [taskA] [taskC]
    (2, 2, { session := [⟨1, "uA", none, some "2024-01-01", some "REPS"⟩] })
    rfl (fun _ => none) id "uB" none "<junk>".data rfl

end Hansard
